import Mathlib

/-!
# Verification of the voice-automation orchestration core

A shallow embedding, in Lean 4, of the orchestration subsystem of the
repository (plan compiler, DAG scheduler, working-set store, webhook
delivery, agent factory), together with theorems settling the frozen
claims about it.

Conventions of the embedding:
* Python dicts keyed by strings become association lists
  `List (String × α)` (insertion order preserved) or, for index sets,
  functions `String → Finset String` updated pointwise.
* `datetime.now().isoformat()` timestamps are supplied by the caller as
  opaque `String` arguments (`now`).
* Fallible code returns `Except String α`.
* Machine behaviour that depends on the network or filesystem is made
  explicit: an environment argument lists the outcome each successive
  HTTP request would receive, and the filesystem is a partial map from
  paths to byte lists.
-/

/-! ## Basic helpers -/

/-- Accumulating splitter: `cur` holds the current word reversed. -/
def splitWSAux : List Char → List Char → List String
  | [], cur => if cur.isEmpty then [] else [String.mk cur.reverse]
  | c :: cs, cur =>
    if c.isWhitespace then
      if cur.isEmpty then splitWSAux cs []
      else String.mk cur.reverse :: splitWSAux cs []
    else splitWSAux cs (c :: cur)

/-- Python `str.split()` with no argument: split on runs of whitespace,
dropping empty pieces. -/
def pySplit (s : String) : List String :=
  splitWSAux s.data []

/-- Python `str.lower()` (ASCII range, the alphabet the claims use). -/
def pyLower (s : String) : String :=
  String.mk (s.data.map Char.toLower)

/-- Code-point lexicographic comparison of character lists (how Python
compares strings, e.g. for sorting by ISO timestamps). -/
def charListLe : List Char → List Char → Bool
  | [], _ => true
  | _ :: _, [] => false
  | a :: as, b :: bs =>
    if a.toNat < b.toNat then true
    else if b.toNat < a.toNat then false
    else charListLe as bs

/-- Comparison `a <= b` on Python strings. -/
def strLe (a b : String) : Bool := charListLe a.data b.data

/-- Association-list lookup, mirroring `dict.get`. -/
def assocFind {α : Type} (l : List (String × α)) (k : String) : Option α :=
  match l.find? (fun p => p.1 == k) with
  | some p => some p.2
  | none => none

/-- Association-list pointwise update: replace the value stored at `k`
(mirrors mutating the single object held in a Python dict; only the first
matching entry is touched, as dict keys are unique). -/
def assocUpdate {α : Type} (l : List (String × α)) (k : String) (f : α → α) :
    List (String × α) :=
  match l with
  | [] => []
  | p :: t => if p.1 = k then (p.1, f p.2) :: t else p :: assocUpdate t k f

/-- Python dict assignment `d[k] = v`: replace in place if present,
append otherwise. -/
def assocInsert {α : Type} (l : List (String × α)) (k : String) (v : α) :
    List (String × α) :=
  if (l.find? (fun p => p.1 == k)).isSome then assocUpdate l k (fun _ => v)
  else l ++ [(k, v)]

/-- Add `v` to the set stored under key `k` of an index
(`defaultdict(set)` where `index[k].add(v)`). -/
def addKey (f : String → Finset String) (k v : String) : String → Finset String :=
  fun x => if x = k then insert v (f x) else f x

/-! ## Plan compiler: `VoiceCommandParser.calculate_execution_order`
(src/voice-automation-platform/backend/orchestration/voice_parser.py) -/

/-- The fields of `AgentConfig` (orchestration/schemas.py) that the
scheduler consumes. -/
structure AgentConfig where
  role : String
  depends_on : List String
deriving DecidableEq, Repr

/-- The fields of `OrchestrationConfig` (orchestration/schemas.py) that
the scheduler consumes.  `max_parallel_agents` carries the pydantic
default 5 in the source; bounds `ge=1, le=20` are not re-imposed here. -/
structure OrchestrationConfig where
  children : List AgentConfig
  max_parallel_agents : Nat := 5
deriving DecidableEq, Repr

/-- Lookup `graph[r]` for `graph = {agent.role: agent.depends_on for agent in
config.children}`: a Python dict comprehension keeps the *last* binding
for a duplicated key. Missing keys never arise in the source loops; we
default to `[]`. -/
def depsOf (children : List AgentConfig) (r : String) : List String :=
  match children.reverse.find? (fun c => c.role == r) with
  | some c => c.depends_on
  | none => []

/-- Model of `set(graph.keys())`: the distinct roles, first occurrences kept. -/
def rolesList (children : List AgentConfig) : List String :=
  (children.map (fun c => c.role)).dedup

/-- Model of `[role for role in remaining if in_degree[role] == 0]`. -/
def currentLevel (inDeg : String → Nat) (remaining : List String) : List String :=
  remaining.filter (fun r => inDeg r == 0)

/-- Model of `remaining -= set(current_level)`. -/
def removeCurrent (current remaining : List String) : List String :=
  remaining.filter (fun r => !(current.contains r))

/-- The in-degree decrement pass: for each `role` of the current level and
each `dependent` with `role in graph[dependent]`, `in_degree[dependent] -= 1`. -/
def decDeg (deps : String → List String) (current : List String)
    (inDeg : String → Nat) : String → Nat :=
  fun d => inDeg d - (current.filter (fun r => (deps d).contains r)).length

/-- One `while remaining:` loop of `calculate_execution_order`, with the
iteration count bounded by `fuel` (the loop removes at least one role per
pass, so `fuel = remaining.length` suffices; the fuel-exhausted branch is
unreachable from `calculateExecutionOrder` and conservatively reports the
same circular-dependency error). -/
def kahnAux (deps : String → List String) :
    Nat → (String → Nat) → List String → Except String (List (List String))
  | 0, _, remaining =>
    if remaining.isEmpty then .ok []
    else .error "Circular dependency detected in workflow"
  | fuel + 1, inDeg, remaining =>
    if remaining.isEmpty then .ok []
    else
      let current := currentLevel inDeg remaining
      if current.isEmpty then .error "Circular dependency detected in workflow"
      else
        (kahnAux deps fuel (decDeg deps current inDeg) (removeCurrent current remaining)).map
          (fun lvls => current :: lvls)

/-- Model of `VoiceCommandParser.calculate_execution_order` (voice_parser.py lines
182-211).  Within a level the source iterates a Python `set` in
unspecified order; we keep the original declaration order, which fixes
the same level *contents*. -/
def calculateExecutionOrder (config : OrchestrationConfig) :
    Except String (List (List String)) :=
  let deps := depsOf config.children
  let roles := rolesList config.children
  kahnAux deps roles.length (fun r => (deps r).length) roles

/-! ## Cycles in the `depends_on` graph -/

/-- The `depends_on` graph restricted to `S` contains a cycle: a closed
walk of positive length whose nodes all lie in `S`, each step moving from
a role to one of its `depends_on` entries. -/
def HasCycle (deps : String → List String) (S : List String) : Prop :=
  ∃ (g : Nat → String) (n : Nat), 0 < n ∧ g n = g 0 ∧
    ∀ k, k < n → g k ∈ S ∧ g (k + 1) ∈ deps (g k)

/-! ## Schemas: state enums (orchestration/schemas.py) -/

/-- Model of `WorkflowState` (schemas.py lines 22-29). -/
inductive WorkflowState where
  | creating | running | paused | completed | failed | cancelled
deriving DecidableEq, Repr

/-- Model of `AgentState` (schemas.py lines 12-19). -/
inductive AgentState where
  | creating | running | waiting | completed | failed | cancelled
deriving DecidableEq, Repr

/-! ## Agent factory: `AgentFactory.update_agent_state`
(src/voice-automation-platform/backend/orchestration/agent_factory.py) -/

/-- The mutable fields of `AgentInstance` (schemas.py lines 102-114) that
`update_agent_state` touches. -/
structure AgentInstance where
  state : AgentState := .creating
  started_at : Option String := none
  completed_at : Option String := none
  output : Option String := none
  error : Option String := none
deriving DecidableEq, Repr

/-- Model of `AgentFactory.update_agent_state` (agent_factory.py lines 148-179),
acting on the `agent_id → AgentInstance` map.  `now` stands for
`datetime.now()` at the call. -/
def updateAgentState (agents : List (String × AgentInstance)) (now : String)
    (agentId : String) (state : AgentState)
    (output : Option String := none) (error : Option String := none) :
    Except String (List (String × AgentInstance)) :=
  match assocFind agents agentId with
  | none => .error ("Agent " ++ agentId ++ " not found")
  | some _ =>
    .ok (assocUpdate agents agentId (fun a =>
      let a1 := { a with state := state }
      let a2 := if state = .running ∧ a1.started_at = none
        then { a1 with started_at := some now } else a1
      let a3 := if state = .completed ∨ state = .failed
        then { a2 with completed_at := some now } else a2
      let a4 := match output with
        | some v => { a3 with output := some v }
        | none => a3
      match error with
      | some e => { a4 with error := some e }
      | none => a4))

/-! ## DAG scheduler: `WorkflowCoordinator.execute_workflow`
(src/voice-automation-platform/backend/orchestration/workflow_coordinator.py)

Two views of the same code are embedded.

1. `executeWorkflow` is a sequential denotation of the whole coroutine:
   it records, in program order, the workflow states set through
   `update_workflow_state` and the agent states set through
   `update_agent_state`, with the outcome of each agent's
   `agent_sdk.run(...)` call supplied by an environment `run`.  Within a
   level the concurrent tasks are serialized in declaration order (the
   set of events is schedule-independent).

2. `LevelStep`/`LevelReachable` is a small-step interleaving semantics of
   `_execute_level` for one level, used for instantaneous-state claims:
   each spawned task synchronously marks its agent `running`
   (`update_agent_state(..., RUNNING)`), suspends at the `await` of the
   LLM call, and later finishes `completed` or `failed`.  No semaphore
   appears in the source, so steps are unconstrained. -/

/-- Events of one `_execute_agent` task: the agent is marked `running`,
then `completed` on success or `failed` on an exception, together with
the raised error if any. -/
def agentTaskEvents (run : String → Except String String) (role : String) :
    List (String × AgentState) :=
  match run role with
  | .ok _ => [(role, AgentState.running), (role, AgentState.completed)]
  | .error _ => [(role, AgentState.running), (role, AgentState.failed)]

/-- Is this agent's `asyncio.gather` slot an exception? -/
def taskFailed (run : String → Except String String) (role : String) : Bool :=
  match run role with
  | .ok _ => false
  | .error _ => true

/-- The errors re-raised from a level: `_execute_level` scans the gather
results in order, re-marks the first failing agent `FAILED` and re-raises
its exception. -/
def levelFailure (run : String → Except String String) (roles : List String) :
    Option (String × String) :=
  match roles.find? (taskFailed run) with
  | some r =>
    match run r with
    | .error e => some (r, e)
    | .ok _ => none
  | none => none

/-- Execute the levels in order (`for level in execution_levels`),
accumulating agent events; stops at the first level whose gather scan
re-raises. -/
def runLevels (run : String → Except String String) :
    List (List String) → List (String × AgentState) × Option String
  | [] => ([], none)
  | level :: rest =>
    let events := level.flatMap (agentTaskEvents run)
    match levelFailure run level with
    | some (r, e) => (events ++ [(r, AgentState.failed)], some e)
    | none =>
      let (evs, err) := runLevels run rest
      (events ++ evs, err)

deriving instance DecidableEq for Except

/-- The observable behaviour of one `execute_workflow` call. -/
structure WorkflowRun where
  stateTrace : List WorkflowState
  agentEvents : List (String × AgentState)
  outcome : Except String Unit
deriving DecidableEq, Repr

/-- Model of `WorkflowCoordinator.execute_workflow` (workflow_coordinator.py lines
21-41): set the workflow `RUNNING`, compute the execution levels (which
raises on a cyclic plan), run the levels, and set `COMPLETED`, with the
`except` clause setting `FAILED` and re-raising. -/
def executeWorkflow (run : String → Except String String)
    (config : OrchestrationConfig) : WorkflowRun :=
  match calculateExecutionOrder config with
  | .error e =>
    { stateTrace := [WorkflowState.running, WorkflowState.failed]
      agentEvents := []
      outcome := .error e }
  | .ok levels =>
    match runLevels run levels with
    | (events, none) =>
      { stateTrace := [WorkflowState.running, WorkflowState.completed]
        agentEvents := events
        outcome := .ok () }
    | (events, some e) =>
      { stateTrace := [WorkflowState.running, WorkflowState.failed]
        agentEvents := events
        outcome := .error e }

/-- One interleaving step of the tasks of a single level.  Position `i`
of the state vector holds the `AgentState` of the `i`-th agent of the
level. -/
inductive LevelStep : List AgentState → List AgentState → Prop where
  | start (s : List AgentState) (i : Nat) (h : s[i]? = some AgentState.creating) :
      LevelStep s (s.set i AgentState.running)
  | finishOk (s : List AgentState) (i : Nat) (h : s[i]? = some AgentState.running) :
      LevelStep s (s.set i AgentState.completed)
  | finishErr (s : List AgentState) (i : Nat) (h : s[i]? = some AgentState.running) :
      LevelStep s (s.set i AgentState.failed)

/-- States reachable while `_execute_level` runs a level of `n` agents
(all start in `CREATING`). -/
def LevelReachable (n : Nat) (s : List AgentState) : Prop :=
  Relation.ReflTransGen LevelStep (List.replicate n AgentState.creating) s

/-! ## SHA-256 and HMAC-SHA256

A bit-exact model of Python's `hashlib.sha256`/`hmac.new(...)` over byte
lists; 32-bit machine words are `Nat`s reduced mod `2 ^ 32`. -/

/-- Reduce mod `2 ^ 32`. -/
def w32 (x : Nat) : Nat := x % 4294967296

/-- Rotate a 32-bit word right by `n` (for `x < 2 ^ 32`, `n ≤ 32`). -/
def rotr32 (x n : Nat) : Nat := x / 2 ^ n + x % 2 ^ n * 2 ^ (32 - n)

def bigSigma0 (x : Nat) : Nat := rotr32 x 2 ^^^ rotr32 x 13 ^^^ rotr32 x 22
def bigSigma1 (x : Nat) : Nat := rotr32 x 6 ^^^ rotr32 x 11 ^^^ rotr32 x 25
def smallSigma0 (x : Nat) : Nat := rotr32 x 7 ^^^ rotr32 x 18 ^^^ x / 2 ^ 3
def smallSigma1 (x : Nat) : Nat := rotr32 x 17 ^^^ rotr32 x 19 ^^^ x / 2 ^ 10
def chF (x y z : Nat) : Nat := x &&& y ^^^ ((x ^^^ 4294967295) &&& z)
def majF (x y z : Nat) : Nat := x &&& y ^^^ (x &&& z) ^^^ (y &&& z)

/-- The 64 SHA-256 round constants, written in decimal. -/
def shaK : List Nat :=
  [1116352408, 1899447441, 3049323471, 3921009573, 961987163, 1508970993,
   2453635748, 2870763221, 3624381080, 310598401, 607225278, 1426881987,
   1925078388, 2162078206, 2614888103, 3248222580, 3835390401, 4022224774,
   264347078, 604807628, 770255983, 1249150122, 1555081692, 1996064986,
   2554220882, 2821834349, 2952996808, 3210313671, 3336571891, 3584528711,
   113926993, 338241895, 666307205, 773529912, 1294757372, 1396182291,
   1695183700, 1986661051, 2177026350, 2456956037, 2730485921, 2820302411,
   3259730800, 3345764771, 3516065817, 3600352804, 4094571909, 275423344,
   430227734, 506948616, 659060556, 883997877, 958139571, 1322822218,
   1537002063, 1747873779, 1955562222, 2024104815, 2227730452, 2361852424,
   2428436474, 2756734187, 3204031479, 3329325298]

/-- The SHA-256 initial hash state, written in decimal. -/
def shaH0 : List Nat :=
  [1779033703, 3144134277, 1013904242, 2773480762,
   1359893119, 2600822924, 528734635, 1541459225]

/-- Extend the 16-word block to the 64-word message schedule. -/
def extendSchedule : Nat → List Nat → List Nat
  | 0, acc => acc
  | n + 1, acc =>
    let len := acc.length
    let nw := w32 (smallSigma1 (acc.getD (len - 2) 0) + acc.getD (len - 7) 0
      + smallSigma0 (acc.getD (len - 15) 0) + acc.getD (len - 16) 0)
    extendSchedule n (acc ++ [nw])

/-- One SHA-256 compression round on the 8-word state. -/
def shaRound (k w : Nat) (st : List Nat) : List Nat :=
  match st with
  | [a, b, c, d, e, f, g, h] =>
    let t1 := w32 (h + bigSigma1 e + chF e f g + k + w)
    let t2 := w32 (bigSigma0 a + majF a b c)
    [w32 (t1 + t2), a, b, c, w32 (d + t1), e, f, g]
  | other => other

/-- Compress one 16-word block into the state. -/
def shaCompress (st block16 : List Nat) : List Nat :=
  let ws := extendSchedule 48 block16
  let stEnd := (shaK.zip ws).foldl (fun s kw => shaRound kw.1 kw.2 s) st
  List.zipWith (fun x y => w32 (x + y)) st stEnd

/-- Big-endian bytes of `n`, `k` bytes wide. -/
def beBytes : Nat → Nat → List Nat
  | 0, _ => []
  | k + 1, n => beBytes k (n / 256) ++ [n % 256]

/-- SHA-256 padding: append `0x80`, zeros to 56 mod 64, and the 64-bit
bit length. -/
def sha256Pad (msg : List Nat) : List Nat :=
  let padZeros := (119 - msg.length % 64) % 64
  msg ++ [128] ++ List.replicate padZeros 0 ++ beBytes 8 (8 * msg.length)

/-- Group bytes into big-endian 32-bit words. -/
def bytesToWords (bytes : List Nat) : List Nat :=
  (bytes.toChunks 4).map (fun c => c.foldl (fun acc b => acc * 256 + b) 0)

/-- SHA-256 digest (32 bytes) of a byte list. -/
def sha256 (msg : List Nat) : List Nat :=
  let blocks := ((sha256Pad msg).toChunks 64).map bytesToWords
  let final := blocks.foldl shaCompress shaH0
  final.flatMap (beBytes 4)

/-- One lowercase hex digit. -/
def hexDigit (n : Nat) : Char :=
  if n < 10 then Char.ofNat (48 + n) else Char.ofNat (87 + n)

/-- Lowercase hex of one byte. -/
def hexByte (b : Nat) : String :=
  String.singleton (hexDigit (b / 16)) ++ String.singleton (hexDigit (b % 16))

/-- Python `hexdigest()`: lowercase hex of a byte list. -/
def hexOfBytes (bs : List Nat) : String :=
  bs.foldl (fun acc b => acc ++ hexByte b) ""

/-- Model of `hmac.new(key, msg, hashlib.sha256)`: the raw digest
(RFC 2104 with a 64-byte block). -/
def hmacSha256 (key msg : List Nat) : List Nat :=
  let k1 := if key.length > 64 then sha256 key else key
  let k2 := k1 ++ List.replicate (64 - k1.length) 0
  let ipadKey := k2.map (fun b => b ^^^ 54)
  let opadKey := k2.map (fun b => b ^^^ 92)
  sha256 (opadKey ++ sha256 (ipadKey ++ msg))

/-- Model of `str.encode()` for the ASCII output of `json.dumps` (its default
`ensure_ascii=True` escapes every non-ASCII character, so code points are
bytes). -/
def strBytes (s : String) : List Nat := s.data.map Char.toNat

/-! ## Python `json.dumps` with default arguments

Used both for the webhook HMAC input (`json.dumps(payload).encode()`)
and for the transmitted body: the repository pins `httpx==0.27.0`
(backend/requirements.txt written by setup_project.py), whose
`encode_json` is `json_dumps(json).encode("utf-8")` with the same default
separators `(", ", ": ")`. -/

/-- JSON values (Python dicts keep insertion order, so an object is a
field list). -/
inductive Json where
  | null
  | bool (b : Bool)
  | num (n : Int)
  | str (s : String)
  | arr (xs : List Json)
  | obj (fields : List (String × Json))
deriving Repr

/-- Four lowercase hex digits. -/
def hex4 (n : Nat) : String :=
  String.singleton (hexDigit (n / 4096 % 16)) ++ String.singleton (hexDigit (n / 256 % 16))
    ++ String.singleton (hexDigit (n / 16 % 16)) ++ String.singleton (hexDigit (n % 16))

/-- Escape one character as Python `json.dumps` does with
`ensure_ascii=True`. -/
def escChar (c : Char) : String :=
  let n := c.toNat
  if c = '"' then "\\\""
  else if c = '\\' then "\\\\"
  else if c = '\n' then "\\n"
  else if c = '\t' then "\\t"
  else if c = '\r' then "\\r"
  else if n = 8 then "\\b"
  else if n = 12 then "\\f"
  else if n < 32 then "\\u" ++ hex4 n
  else if n < 128 then String.singleton c
  else if n < 65536 then "\\u" ++ hex4 n
  else
    "\\u" ++ hex4 (55296 + (n - 65536) / 1024) ++ "\\u" ++ hex4 (56320 + (n - 65536) % 1024)

/-- A JSON string literal as `json.dumps` renders it. -/
def pyQuote (s : String) : String :=
  "\"" ++ s.data.foldl (fun acc c => acc ++ escChar c) "" ++ "\""

mutual

/-- Model of `json.dumps(v)` with default separators `(", ", ": ")`. -/
def pyDumps : Json → String
  | .null => "null"
  | .bool true => "true"
  | .bool false => "false"
  | .num n => toString n
  | .str s => pyQuote s
  | .arr xs => "[" ++ pyDumpsList xs ++ "]"
  | .obj fs => "\x7b" ++ pyDumpsObj fs ++ "\x7d"

def pyDumpsList : List Json → String
  | [] => ""
  | [x] => pyDumps x
  | x :: y :: xs => pyDumps x ++ ", " ++ pyDumpsList (y :: xs)

def pyDumpsObj : List (String × Json) → String
  | [] => ""
  | [(k, v)] => pyQuote k ++ ": " ++ pyDumps v
  | (k, v) :: f :: fs => pyQuote k ++ ": " ++ pyDumps v ++ ", " ++ pyDumpsObj (f :: fs)

end

/-! ## Working-set store
(src/voice-automation-hub/backend/app/memory_store_enhanced.py)

Metadata values and message contents are modelled as strings (the claims
only exercise scalar metadata and string contents).  The filesystem is a
map `String → Option (List Nat)` from paths to byte contents. -/

/-- A message dict `{role, content}` plus the timestamp `add_message`
stamps on it. -/
structure Message where
  role : String
  content : String
  timestamp : String := ""
deriving DecidableEq, Repr

/-- Model of `Thread` (memory_store_enhanced.py lines 14-54). -/
structure Thread where
  id : String
  created_at : String
  updated_at : String
  metadata : List (String × String) := []
  messages : List Message := []
  context : List (String × String) := []
  attachments : List String := []
  items : List String := []
  status : String := "active"
deriving DecidableEq, Repr

/-- Model of `Item` (memory_store_enhanced.py lines 57-103). -/
structure Item where
  id : String
  type : String
  content : String
  created_at : String
  updated_at : String
  metadata : List (String × String) := []
  relations : List String := []
  tags : List String := []
deriving DecidableEq, Repr

/-- Model of `Attachment` (memory_store_enhanced.py lines 106-164). -/
structure Attachment where
  id : String
  file_path : String
  mime_type : String
  created_at : String
  metadata : List (String × String) := []
  size : Nat := 0
  checksum : String := ""
deriving DecidableEq, Repr

/-- Model of `Attachment.__init__`: `size = self._get_file_size()` is
`os.path.getsize` under `except: return 0`, and
`checksum = self._calculate_checksum()` is the SHA-256 hex digest of the
file bytes under `except: return ""`; a missing file therefore yields
size 0 and an empty checksum, not an error. -/
def Attachment.create (fs : String → Option (List Nat))
    (attachment_id file_path mime_type : String)
    (metadata : Option (List (String × String))) (now : String) : Attachment :=
  { id := attachment_id
    file_path := file_path
    mime_type := mime_type
    created_at := now
    metadata := metadata.getD []
    size := match fs file_path with
      | some bytes => bytes.length
      | none => 0
    checksum := match fs file_path with
      | some bytes => hexOfBytes (sha256 bytes)
      | none => "" }

/-- The words a piece of content contributes to a text index:
`str(content).lower().split()`, keeping words longer than 2 characters. -/
def contentWords (content : String) : List String :=
  (pySplit (pyLower content)).filter (fun w => w.length > 2)

/-- All indexed words of a thread (one pass per message). -/
def threadWords (t : Thread) : List String :=
  t.messages.flatMap (fun m => contentWords m.content)

/-- The metadata index key `f"{key}:{value}"`. -/
def metaKey (kv : String × String) : String := kv.1 ++ ":" ++ kv.2

/-- Add `v` under every key of `keys`. -/
def addKeys (f : String → Finset String) (keys : List String) (v : String) :
    String → Finset String :=
  keys.foldl (fun g k => addKey g k v) f

/-- Model of `IndexManager` (memory_store_enhanced.py lines 167-185): each
`defaultdict(set)` becomes a total function into finsets. -/
structure IndexManager where
  thread_by_status : String → Finset String := fun _ => ∅
  thread_by_metadata : String → Finset String := fun _ => ∅
  item_by_type : String → Finset String := fun _ => ∅
  item_by_tag : String → Finset String := fun _ => ∅
  attachment_by_type : String → Finset String := fun _ => ∅
  thread_text_index : String → Finset String := fun _ => ∅
  item_text_index : String → Finset String := fun _ => ∅

/-- Model of `IndexManager.index_thread` (lines 187-203): adds are never paired
with removals. -/
def indexThread (idx : IndexManager) (t : Thread) : IndexManager :=
  { idx with
    thread_by_status := addKey idx.thread_by_status t.status t.id
    thread_by_metadata := addKeys idx.thread_by_metadata (t.metadata.map metaKey) t.id
    thread_text_index := addKeys idx.thread_text_index (threadWords t) t.id }

/-- Model of `IndexManager.index_item` (lines 205-219). -/
def indexItem (idx : IndexManager) (it : Item) : IndexManager :=
  { idx with
    item_by_type := addKey idx.item_by_type it.type it.id
    item_by_tag := addKeys idx.item_by_tag it.tags it.id
    item_text_index := addKeys idx.item_text_index (contentWords it.content) it.id }

/-- Model of `IndexManager.index_attachment` (lines 221-223). -/
def indexAttachment (idx : IndexManager) (a : Attachment) : IndexManager :=
  { idx with attachment_by_type := addKey idx.attachment_by_type a.mime_type a.id }

/-- Python truthiness of an optional string (`if status:` etc.). -/
def strTruthy : Option String → Bool
  | none => false
  | some s => s ≠ ""

/-- The words of the text query (`query.lower().split()`), empty when the
query is absent or falsy. -/
def queryWords (query : Option String) : List String :=
  match query with
  | some q => if q = "" then [] else pySplit (pyLower q)
  | none => []

/-- The running-intersection loop shared by the structural and text
filters of `search_threads`: starting from `acc` (`None` meaning "no
filter applied yet"), intersect with the index set of each key in turn. -/
def interStep {α : Type} (sets : α → Finset String)
    (a : Option (Finset String)) (k : α) : Option (Finset String) :=
  some (match a with
    | none => sets k
    | some r => r ∩ sets k)

def interFold {α : Type} (sets : α → Finset String) (keys : List α)
    (acc : Option (Finset String)) : Option (Finset String) :=
  keys.foldl (interStep sets) acc

/-- The metadata block of `search_threads`: skipped when `metadata` is
absent or empty (Python truthiness), otherwise the intersection loop. -/
def stage2 (sets : String × String → Finset String)
    (m : Option (List (String × String))) (R1 : Option (Finset String)) :
    Option (Finset String) :=
  match m with
  | some ml => if ml.isEmpty then R1 else interFold sets ml R1
  | none => R1

/-- The running intersection of the per-word index sets
(`text_results`), `none` when no word was processed. -/
def textResultSet (idx : IndexManager) (query : Option String) :
    Option (Finset String) :=
  interFold (fun w => idx.thread_text_index w) (queryWords query) none

/-- Model of `IndexManager.search_threads` (lines 225-260).  Note the source's
`if text_results:` test: an *empty* text intersection is falsy and is
silently dropped, so the text filter only applies when it matched at
least one thread. -/
def searchThreadsIdx (idx : IndexManager) (query status : Option String)
    (metadata : Option (List (String × String))) : Finset String :=
  let results0 : Option (Finset String) := none
  let results1 := if strTruthy status
    then some (idx.thread_by_status (status.getD ""))
    else results0
  let results2 := stage2 (fun kv => idx.thread_by_metadata (metaKey kv)) metadata results1
  let results3 := match textResultSet idx query with
    | some tr =>
      if tr ≠ ∅
      then some (match results2 with
        | none => tr
        | some r => r ∩ tr)
      else results2
    | none => results2
  results3.getD ∅

/-- Is the status filter applied (`if status:`)? -/
def statusApplied (status : Option String) : Bool := strTruthy status

/-- Is the metadata filter applied (`if metadata:`)? -/
def metaApplied (metadata : Option (List (String × String))) : Bool :=
  match metadata with
  | some m => !m.isEmpty
  | none => false

/-- Is the text filter actually applied — i.e. is `text_results` truthy
(non-`None` and non-empty)? -/
def textApplied (idx : IndexManager) (query : Option String) : Bool :=
  match textResultSet idx query with
  | some tr => tr ≠ ∅
  | none => false

/-- Model of `EnhancedMemoryStore` (lines 299-318): the three entity dicts plus
the index manager.  Snapshot persistence (`_persist`) performs I/O only
and does not change the in-memory state, so it is omitted. -/
structure Store where
  threads : List (String × Thread) := []
  items : List (String × Item) := []
  attachments : List (String × Attachment) := []
  indexes : IndexManager := {}

/-- Model of `EnhancedMemoryStore.create_thread` (lines 320-329). -/
def createThread (store : Store) (thread_id : String)
    (metadata : Option (List (String × String))) (now : String) : Store :=
  let t : Thread := { id := thread_id, created_at := now, updated_at := now
                      metadata := metadata.getD [] }
  { store with
    threads := assocInsert store.threads thread_id t
    indexes := indexThread store.indexes t }

/-- The `updates` dict of `update_thread`: the source `setattr`s any
existing attribute named in the dict; the fields the claims exercise are
`status` and `metadata`. -/
structure ThreadUpdates where
  status : Option String := none
  metadata : Option (List (String × String)) := none
deriving DecidableEq, Repr

def applyThreadUpdates (t : Thread) (u : ThreadUpdates) : Thread :=
  let t1 := match u.status with
    | some s => { t with status := s }
    | none => t
  match u.metadata with
  | some m => { t1 with metadata := m }
  | none => t1

/-- Model of `EnhancedMemoryStore.update_thread` (lines 335-350): re-indexes the
thread after mutating it; nothing is ever removed from the indexes. -/
def updateThread (store : Store) (thread_id : String) (u : ThreadUpdates)
    (now : String) : Store :=
  match assocFind store.threads thread_id with
  | none => store
  | some t =>
    let t' := { applyThreadUpdates t u with updated_at := now }
    { store with
      threads := assocUpdate store.threads thread_id (fun _ => t')
      indexes := indexThread store.indexes t' }

/-- Model of `EnhancedMemoryStore.add_message` (lines 352-369). -/
def addMessage (store : Store) (thread_id role content now : String) : Store :=
  match assocFind store.threads thread_id with
  | none => store
  | some t =>
    let t' := { t with
      messages := t.messages ++ [{ role := role, content := content, timestamp := now }]
      updated_at := now }
    { store with
      threads := assocUpdate store.threads thread_id (fun _ => t')
      indexes := indexThread store.indexes t' }

/-- Model of `EnhancedMemoryStore.create_item` (lines 389-402). -/
def createItem (store : Store) (item_id item_type content : String)
    (metadata : Option (List (String × String))) (now : String) : Store :=
  let it : Item := { id := item_id, type := item_type, content := content
                     created_at := now, updated_at := now
                     metadata := metadata.getD [] }
  { store with
    items := assocInsert store.items item_id it
    indexes := indexItem store.indexes it }

/-- The `updates` dict of `update_item`; the indexed fields are `type`,
`tags` and `content`. -/
structure ItemUpdates where
  type : Option String := none
  tags : Option (List String) := none
  content : Option String := none
deriving DecidableEq, Repr

def applyItemUpdates (it : Item) (u : ItemUpdates) : Item :=
  let i1 := match u.type with
    | some ty => { it with type := ty }
    | none => it
  let i2 := match u.tags with
    | some tg => { i1 with tags := tg }
    | none => i1
  match u.content with
  | some c => { i2 with content := c }
  | none => i2

/-- Model of `EnhancedMemoryStore.update_item` (lines 408-421). -/
def updateItem (store : Store) (item_id : String) (u : ItemUpdates)
    (now : String) : Store :=
  match assocFind store.items item_id with
  | none => store
  | some it =>
    let it' := { applyItemUpdates it u with updated_at := now }
    { store with
      items := assocUpdate store.items item_id (fun _ => it')
      indexes := indexItem store.indexes it' }

/-- Model of `EnhancedMemoryStore.link_item_to_thread` (lines 476-489): mutates
the thread's `items` list without re-indexing. -/
def linkItemToThread (store : Store) (thread_id item_id now : String) :
    Store × Bool :=
  match assocFind store.threads thread_id, assocFind store.items item_id with
  | some t, some _ =>
    if item_id ∈ t.items then (store, true)
    else
      ({ store with
          threads := assocUpdate store.threads thread_id (fun th =>
            { th with items := th.items ++ [item_id], updated_at := now }) },
        true)
  | _, _ => (store, false)

/-- Model of `EnhancedMemoryStore.link_attachment_to_thread` (lines 460-473). -/
def linkAttachmentToThread (store : Store) (thread_id attachment_id now : String) :
    Store × Bool :=
  match assocFind store.threads thread_id, assocFind store.attachments attachment_id with
  | some t, some _ =>
    if attachment_id ∈ t.attachments then (store, true)
    else
      ({ store with
          threads := assocUpdate store.threads thread_id (fun th =>
            { th with attachments := th.attachments ++ [attachment_id], updated_at := now }) },
        true)
  | _, _ => (store, false)

/-- Append `target` to the relations unless already present (one half of
`link_items`). -/
def addRelation (now target : String) (it : Item) : Item :=
  if target ∈ it.relations then it
  else { it with relations := it.relations ++ [target], updated_at := now }

/-- Model of `EnhancedMemoryStore.link_items` (lines 491-508): both presence
checks happen first; then each side is mutated in sequence (aliasing is
captured by updating the map twice). -/
def linkItems (store : Store) (item_id1 item_id2 now : String) : Store × Bool :=
  match assocFind store.items item_id1, assocFind store.items item_id2 with
  | some _, some _ =>
    let s1 := { store with items := assocUpdate store.items item_id1 (addRelation now item_id2) }
    let s2 := { s1 with items := assocUpdate s1.items item_id2 (addRelation now item_id1) }
    (s2, true)
  | _, _ => (store, false)

/-- Model of `EnhancedMemoryStore.create_attachment` (lines 441-454): always
creates and indexes the attachment, whatever the filesystem says. -/
def createAttachment (store : Store) (fs : String → Option (List Nat))
    (attachment_id file_path mime_type : String)
    (metadata : Option (List (String × String))) (now : String) :
    Store × Attachment :=
  let att := Attachment.create fs attachment_id file_path mime_type metadata now
  ({ store with
      attachments := assocInsert store.attachments attachment_id att
      indexes := indexAttachment store.indexes att },
    att)

/-- Model of `EnhancedMemoryStore.search_threads` (lines 371-386): look up the id
set, materialize the threads, sort by `updated_at` descending, truncate
to `limit`.  The source iterates a Python `set` before the stable sort;
we materialize in store insertion order, fixing one admissible order. -/
def searchThreads (store : Store) (query status : Option String)
    (metadata : Option (List (String × String))) (limit : Nat) : List Thread :=
  let ids := searchThreadsIdx store.indexes query status metadata
  let threads := (store.threads.filter (fun p => p.1 ∈ ids)).map (fun p => p.2)
  let sorted := threads.insertionSort
    (fun t1 t2 => strLe t2.updated_at t1.updated_at = true)
  sorted.take limit

/-- One store mutation, with every environment input (timestamps, file
contents) carried in the operation. -/
inductive StoreOp where
  | createThread (thread_id : String) (metadata : Option (List (String × String))) (now : String)
  | updateThread (thread_id : String) (u : ThreadUpdates) (now : String)
  | addMessage (thread_id role content now : String)
  | createItem (item_id item_type content : String) (metadata : Option (List (String × String))) (now : String)
  | updateItem (item_id : String) (u : ItemUpdates) (now : String)
  | linkItems (item_id1 item_id2 now : String)
  | linkItemToThread (thread_id item_id now : String)
  | linkAttachmentToThread (thread_id attachment_id now : String)
  | createAttachment (attachment_id file_path mime_type : String)
      (metadata : Option (List (String × String))) (contents : Option (List Nat)) (now : String)

/-- Apply one mutation. -/
def applyOp (store : Store) : StoreOp → Store
  | .createThread tid m now => createThread store tid m now
  | .updateThread tid u now => updateThread store tid u now
  | .addMessage tid role content now => addMessage store tid role content now
  | .createItem iid ty c m now => createItem store iid ty c m now
  | .updateItem iid u now => updateItem store iid u now
  | .linkItems a b now => (linkItems store a b now).1
  | .linkItemToThread tid iid now => (linkItemToThread store tid iid now).1
  | .linkAttachmentToThread tid aid now => (linkAttachmentToThread store tid aid now).1
  | .createAttachment aid path mime m contents now =>
    (createAttachment store (fun _ => contents) aid path mime m now).1

/-- Apply a sequence of mutations to a store. -/
def applyOps (ops : List StoreOp) (store : Store) : Store :=
  ops.foldl applyOp store

/-- A thread currently satisfies the predicate of index key `K` iff its
id is required in the corresponding set: its status key, each of its
metadata keys, and each indexed word of its messages. -/
def ThreadIndexed (idx : IndexManager) (t : Thread) : Prop :=
  t.id ∈ idx.thread_by_status t.status ∧
  (∀ kv ∈ t.metadata, t.id ∈ idx.thread_by_metadata (metaKey kv)) ∧
  (∀ w ∈ threadWords t, t.id ∈ idx.thread_text_index w)

/-- The item counterpart: type key, tag keys, content words. -/
def ItemIndexed (idx : IndexManager) (it : Item) : Prop :=
  it.id ∈ idx.item_by_type it.type ∧
  (∀ tag ∈ it.tags, it.id ∈ idx.item_by_tag tag) ∧
  (∀ w ∈ contentWords it.content, it.id ∈ idx.item_text_index w)

/-- The attachment counterpart: mime-type key. -/
def AttachmentIndexed (idx : IndexManager) (a : Attachment) : Prop :=
  a.id ∈ idx.attachment_by_type a.mime_type

/-- Every entity of the store is indexed under every key whose predicate
it currently satisfies (the direction of the index-consistency claim
that the code maintains). -/
def StoreIndexed (store : Store) : Prop :=
  (∀ p ∈ store.threads, ThreadIndexed store.indexes p.2) ∧
  (∀ p ∈ store.items, ItemIndexed store.indexes p.2) ∧
  (∀ p ∈ store.attachments, AttachmentIndexed store.indexes p.2)

/-- Pointwise containment of index states (indexes only ever grow). -/
def idxLe (idx idx' : IndexManager) : Prop :=
  (∀ k x, x ∈ idx.thread_by_status k → x ∈ idx'.thread_by_status k) ∧
  (∀ k x, x ∈ idx.thread_by_metadata k → x ∈ idx'.thread_by_metadata k) ∧
  (∀ k x, x ∈ idx.item_by_type k → x ∈ idx'.item_by_type k) ∧
  (∀ k x, x ∈ idx.item_by_tag k → x ∈ idx'.item_by_tag k) ∧
  (∀ k x, x ∈ idx.attachment_by_type k → x ∈ idx'.attachment_by_type k) ∧
  (∀ k x, x ∈ idx.thread_text_index k → x ∈ idx'.thread_text_index k) ∧
  (∀ k x, x ∈ idx.item_text_index k → x ∈ idx'.item_text_index k)

/-! ## Webhook delivery
(src/voice-automation-hub/backend/app/webhooks.py and
src/voice-automation-platform/backend/orchestration/webhook_adapter.py) -/

/-- Model of `Webhook` (webhooks.py lines 34-63). -/
structure Webhook where
  id : String
  url : String
  events : List String := []
  secret : Option String := none
  active : Bool := true

/-- What the network answers one HTTP POST: a status code, or a raised
exception (connection error, timeout, ...). -/
inductive AttemptOutcome where
  | ok (status : Nat)
  | exn (msg : String)
deriving DecidableEq, Repr

/-- An outgoing HTTP request: `client.post(url, json=payload,
headers=headers)`.  With the pinned `httpx==0.27.0` the transmitted body
bytes are `json.dumps(payload).encode("utf-8")`. -/
structure HttpRequest where
  url : String
  body : List Nat
  headers : List (String × String)
deriving DecidableEq, Repr

/-- A delivery-history record (webhooks.py lines 177-185); the source
initializes `attempts` to 0 and never increments it. -/
structure DeliveryRecord where
  webhook_id : String
  url : String
  event : String
  status : String
  attempts : Nat := 0
  response_code : Option Nat := none
  error : Option String := none
deriving DecidableEq, Repr

/-- Everything observable about one `_deliver_webhook` call. -/
structure DeliveryResult where
  request : HttpRequest
  requestsMade : Nat
  sleeps : List Nat
  record : DeliveryRecord
deriving DecidableEq, Repr

/-- The payload `trigger_event` builds (webhooks.py lines 155-159). -/
def webhookPayload (event : String) (data : Json) (now : String) : Json :=
  .obj [("event", .str event), ("data", data), ("timestamp", .str now)]

/-- The headers `_deliver_webhook` sends: `Content-Type`, plus — when
`webhook.secret` is truthy — `X-Webhook-Signature: sha256=<hex>` where
`<hex>` is the HMAC-SHA256 of `json.dumps(payload).encode()` keyed by the
secret. -/
def deliveryHeaders (wh : Webhook) (bodyStr : String) : List (String × String) :=
  let base := [("Content-Type", "application/json")]
  if strTruthy wh.secret then
    base ++ [("X-Webhook-Signature",
      "sha256=" ++ hexOfBytes (hmacSha256 (strBytes (wh.secret.getD "")) (strBytes bodyStr)))]
  else base

/-- Model of `WebhookManager._deliver_webhook` (webhooks.py lines 165-241): build
headers and body, POST once, mark the record `success` iff
`response.raise_for_status()` does not raise.  The pinned `httpx==0.27.0`
raises `HTTPStatusError` for every non-2xx response (`raise_for_status`
returns only when `is_success`, i.e. `200 <= status_code < 300`; 1xx and
3xx raise "Informational response" / "Redirect response" errors, and the
client does not follow redirects by default), so success means a 2xx
status; any exception marks the record `failed`.  No retry is performed
(`self.retry_attempts = 3` is never read; the source comments `Retry
logic could be added here`).  `env` lists the outcomes successive
requests would receive; exactly one is consumed. -/
def deliverWebhook (wh : Webhook) (event : String) (data : Json) (now : String)
    (env : List AttemptOutcome) : DeliveryResult :=
  let payload := webhookPayload event data now
  let bodyStr := pyDumps payload
  let req : HttpRequest :=
    { url := wh.url, body := strBytes bodyStr, headers := deliveryHeaders wh bodyStr }
  let base : DeliveryRecord :=
    { webhook_id := wh.id, url := wh.url, event := event, status := "pending" }
  match env.headD (AttemptOutcome.exn "connection error") with
  | .ok status =>
    if 200 ≤ status ∧ status < 300 then
      { request := req, requestsMade := 1, sleeps := []
        record := { base with status := "success", response_code := some status } }
    else
      { request := req, requestsMade := 1, sleeps := []
        record := { base with status := "failed", error := some "http status error" } }
  | .exn msg =>
    { request := req, requestsMade := 1, sleeps := []
      record := { base with status := "failed", error := some msg } }

/-- The loop body of `WebhookEventAdapter._call_webhook`
(webhook_adapter.py lines 116-135): `for attempt in
range(retry_count + 1)`, returning on the first status < 400; a status
≥ 400 just continues; an exception sleeps `2 ** attempt` seconds unless
it was the last attempt.  Returns the number of requests made and the
backoff sleeps performed. -/
def callWebhookLoop : Nat → Nat → List AttemptOutcome → Nat × List Nat
  | 0, _, _ => (0, [])
  | n + 1, idx, env =>
    match env.headD (AttemptOutcome.exn "connection error") with
    | .ok status =>
      if status < 400 then (1, [])
      else
        let r := callWebhookLoop n (idx + 1) env.tail
        (r.1 + 1, r.2)
    | .exn _ =>
      if n = 0 then (1, [])
      else
        let r := callWebhookLoop n (idx + 1) env.tail
        (r.1 + 1, 2 ^ idx :: r.2)

/-- Model of `WebhookEventAdapter._call_webhook`: `retry_count + 1` attempts in
total (default `retry_count = 3`). -/
def callWebhook (retryCount : Nat) (env : List AttemptOutcome) : Nat × List Nat :=
  callWebhookLoop (retryCount + 1) 0 env

/-! ## Concrete example plans used to instantiate the theorems -/

/-- The rule-path `code` template of the spec: `test` depends on `code`. -/
def cfgChain : OrchestrationConfig :=
  { children := [{ role := "code", depends_on := [] },
                 { role := "test", depends_on := ["code"] }] }

/-- The two-node cyclic plan of scenario S2: `a` and `b` depend on each
other. -/
def cfgCycle : OrchestrationConfig :=
  { children := [{ role := "a", depends_on := ["b"] },
                 { role := "b", depends_on := ["a"] }] }

/-- An acyclic plan whose `depends_on` list repeats an existing sibling. -/
def cfgDupDeps : OrchestrationConfig :=
  { children := [{ role := "a", depends_on := [] },
                 { role := "b", depends_on := ["a", "a"] }] }

/-- Two independent agents with `max_parallel_agents = 1`. -/
def cfgTwoPar : OrchestrationConfig :=
  { children := [{ role := "a", depends_on := [] },
                 { role := "b", depends_on := [] }]
    max_parallel_agents := 1 }

theorem hasCycle_mono {deps : String → List String} {S T : List String}
    (hsub : ∀ x ∈ S, x ∈ T) (h : HasCycle deps S) : HasCycle deps T := by
  obtain ⟨g, n, hn, hclose, hstep⟩ := h
  exact ⟨g, n, hn, hclose, fun k hk => ⟨hsub _ (hstep k hk).1, (hstep k hk).2⟩⟩

/-- Finite graphs without a closed walk have a source: some `r ∈ S` none
of whose dependencies lies in `S`. -/
theorem exists_source_of_no_cycle (deps : String → List String)
    (S : List String) (hne : S ≠ []) (hnc : ¬ HasCycle deps S) :
    ∃ r ∈ S, ∀ d ∈ deps r, d ∉ S := by
  by_contra hcon
  push_neg at hcon
  -- every node of S has a dependency inside S; choose one for each
  have hstep : ∀ r ∈ S, ∃ d, d ∈ deps r ∧ d ∈ S := by
    intro r hr
    obtain ⟨d, hd, hdS⟩ := hcon r hr
    exact ⟨d, hd, hdS⟩
  classical
  let f : String → String := fun r =>
    if h : ∃ d, d ∈ deps r ∧ d ∈ S then h.choose else r
  have hf : ∀ r ∈ S, f r ∈ deps r ∧ f r ∈ S := by
    intro r hr
    have h : ∃ d, d ∈ deps r ∧ d ∈ S := hstep r hr
    simpa [f, h] using h.choose_spec
  obtain ⟨x0, hx0⟩ := List.exists_mem_of_ne_nil S hne
  have hiter : ∀ k, f^[k] x0 ∈ S := by
    intro k
    induction k with
    | zero => simpa using hx0
    | succ m ih =>
      rw [Function.iterate_succ_apply']
      exact (hf _ ih).2
  -- pigeonhole over the iterates
  have hmaps : ∀ a ∈ Finset.range (S.toFinset.card + 1),
      f^[a] x0 ∈ S.toFinset := by
    intro a _
    exact List.mem_toFinset.mpr (hiter a)
  obtain ⟨i, hi, j, hj, hij, heq⟩ :=
    Finset.exists_ne_map_eq_of_card_lt_of_maps_to
      (by simp) hmaps
  -- arrange i < j
  have key : ∀ a b : ℕ, a < b → f^[a] x0 = f^[b] x0 → HasCycle deps S := by
    intro a b hab hfab
    refine ⟨fun k => f^[a + k] x0, b - a, by omega, ?_, ?_⟩
    · show f^[a + (b - a)] x0 = f^[a + 0] x0
      have h1 : a + (b - a) = b := by omega
      have h2 : a + 0 = a := by omega
      rw [h1, h2, hfab]
    · intro k _
      constructor
      · exact hiter (a + k)
      · show f^[a + (k + 1)] x0 ∈ deps (f^[a + k] x0)
        have : a + (k + 1) = (a + k) + 1 := by omega
        rw [this, Function.iterate_succ_apply']
        exact (hf _ (hiter (a + k))).1
  rcases lt_or_gt_of_ne hij with hlt | hgt
  · exact hnc (key i j hlt heq)
  · exact hnc (key j i hgt heq.symm)

/-! ### Membership and counting facts about the loop pieces -/

theorem mem_currentLevel {inDeg : String → Nat} {remaining : List String} {x : String} :
    x ∈ currentLevel inDeg remaining ↔ x ∈ remaining ∧ inDeg x = 0 := by
  simp [currentLevel, List.mem_filter]

theorem mem_removeCurrent {current remaining : List String} {x : String} :
    x ∈ removeCurrent current remaining ↔ x ∈ remaining ∧ x ∉ current := by
  simp [removeCurrent, List.mem_filter]

/-- For a duplicate-free list, the number of elements passing a membership
test is the cardinality of the corresponding intersection of finsets. -/
theorem length_filter_contains (L R : List String) (h : L.Nodup) :
    (L.filter (fun x => R.contains x)).length = (L.toFinset ∩ R.toFinset).card := by
  have h2 : (L.filter (fun x => R.contains x)).Nodup := h.filter _
  rw [← List.toFinset_card_of_nodup h2, List.toFinset_filter]
  congr 1
  ext x
  simp

theorem toFinset_dedup_eq (l : List String) : l.dedup.toFinset = l.toFinset := by
  ext x; simp

/-- The list `remaining` splits as `removeCurrent current remaining` plus
`currentLevel inDeg remaining`, intersected with any finset `D`. -/
theorem card_inter_split (D : Finset String) (inDeg : String → Nat)
    (remaining : List String) (hnd : remaining.Nodup) :
    (D ∩ remaining.toFinset).card
      = (D ∩ (removeCurrent (currentLevel inDeg remaining) remaining).toFinset).card
        + (D ∩ (currentLevel inDeg remaining).toFinset).card := by
  have hunion : remaining.toFinset
      = (removeCurrent (currentLevel inDeg remaining) remaining).toFinset
        ∪ (currentLevel inDeg remaining).toFinset := by
    ext x
    simp only [Finset.mem_union, List.mem_toFinset, mem_removeCurrent, mem_currentLevel]
    by_cases hx : x ∈ currentLevel inDeg remaining
    · simp only [mem_currentLevel] at hx
      tauto
    · simp only [mem_currentLevel] at hx
      tauto
  have hdisj : Disjoint
      (D ∩ (removeCurrent (currentLevel inDeg remaining) remaining).toFinset)
      (D ∩ (currentLevel inDeg remaining).toFinset) := by
    rw [Finset.disjoint_left]
    intro x hx1 hx2
    simp only [Finset.mem_inter, List.mem_toFinset, mem_removeCurrent] at hx1 hx2
    exact hx1.2.2 hx2.2
  rw [hunion, Finset.inter_union_distrib_left, Finset.card_union_of_disjoint hdisj]

/-- Exact in-degree invariant preservation: if `inDeg` counts, for each
node, its dependencies still in `remaining` (duplicate-free dependency
lists), the decrement pass re-establishes the same count with respect to
the shrunken `remaining`. -/
theorem decDeg_eq (deps : String → List String) (inDeg : String → Nat)
    (remaining : List String) (hnd : remaining.Nodup)
    (d : String) (hdd : (deps d).Nodup)
    (hdeg : inDeg d = ((deps d).filter (fun x => remaining.contains x)).length) :
    decDeg deps (currentLevel inDeg remaining) inDeg d
      = ((deps d).filter
          (fun x => (removeCurrent (currentLevel inDeg remaining) remaining).contains x)).length := by
  have hcnd : (currentLevel inDeg remaining).Nodup := hnd.filter _
  have hsplit := card_inter_split ((deps d).toFinset) inDeg remaining hnd
  have hswap : ((currentLevel inDeg remaining).filter (fun r => (deps d).contains r)).length
      = ((deps d).toFinset ∩ (currentLevel inDeg remaining).toFinset).card := by
    rw [length_filter_contains _ _ hcnd, Finset.inter_comm]
  rw [decDeg, hswap, hdeg,
    length_filter_contains _ _ hdd, length_filter_contains _ _ hdd]
  omega

/-- Lower-bound version of the invariant (duplicates in dependency lists
allowed): the count of *distinct* dependencies still in `remaining` stays
a lower bound for the maintained in-degree. -/
theorem decDeg_ge (deps : String → List String) (inDeg : String → Nat)
    (remaining : List String) (hnd : remaining.Nodup) (d : String)
    (hdeg : ((deps d).dedup.filter (fun x => remaining.contains x)).length ≤ inDeg d) :
    ((deps d).dedup.filter
        (fun x => (removeCurrent (currentLevel inDeg remaining) remaining).contains x)).length
      ≤ decDeg deps (currentLevel inDeg remaining) inDeg d := by
  have hcnd : (currentLevel inDeg remaining).Nodup := hnd.filter _
  have hdd : (deps d).dedup.Nodup := List.nodup_dedup _
  have hsplit := card_inter_split ((deps d).dedup.toFinset) inDeg remaining hnd
  have hswap : ((currentLevel inDeg remaining).filter (fun r => (deps d).contains r)).length
      = ((deps d).dedup.toFinset ∩ (currentLevel inDeg remaining).toFinset).card := by
    rw [length_filter_contains _ _ hcnd, Finset.inter_comm, toFinset_dedup_eq]
  rw [decDeg, hswap]
  rw [length_filter_contains _ _ hdd] at hdeg
  rw [length_filter_contains _ _ hdd]
  omega

/-- A non-empty level strictly shrinks `remaining`. -/
theorem removeCurrent_length_lt (current remaining : List String)
    (hcur : ∃ x, x ∈ current ∧ x ∈ remaining) :
    (removeCurrent current remaining).length < remaining.length := by
  rw [removeCurrent, List.length_filter_lt_length_iff_exists]
  obtain ⟨x, hxc, hxr⟩ := hcur
  exact ⟨x, hxr, by simp [hxc]⟩

/-- A non-empty list is not `isEmpty`. -/
theorem isEmpty_false_of_ne_nil {l : List String} (h : l ≠ []) : l.isEmpty = false := by
  cases l with
  | nil => exact absurd rfl h
  | cons a t => rfl

/-- Soundness of the levelling loop on acyclic graphs with duplicate-free
dependency lists: it succeeds, its levels enumerate `remaining` exactly
once, and every dependency lying inside `remaining` is placed at a
strictly earlier level than its dependent. -/
theorem kahnAux_ok (deps : String → List String) :
    ∀ (fuel : Nat) (inDeg : String → Nat) (remaining : List String),
    remaining.length ≤ fuel →
    remaining.Nodup →
    (∀ r ∈ remaining, (deps r).Nodup) →
    (∀ r ∈ remaining, inDeg r = ((deps r).filter (fun x => remaining.contains x)).length) →
    ¬ HasCycle deps remaining →
    ∃ levels, kahnAux deps fuel inDeg remaining = .ok levels ∧
      levels.flatten.Nodup ∧
      (∀ x, x ∈ levels.flatten ↔ x ∈ remaining) ∧
      (∀ (i : Nat) (li : List String), levels[i]? = some li →
        ∀ r ∈ li, ∀ d ∈ deps r, d ∈ remaining →
          ∃ (j : Nat) (lj : List String), j < i ∧ levels[j]? = some lj ∧ d ∈ lj) := by
  intro fuel
  induction fuel with
  | zero =>
    intro inDeg remaining hlen _ _ _ _
    have hnil : remaining = [] := List.eq_nil_of_length_eq_zero (by omega)
    subst hnil
    exact ⟨[], rfl, by simp, by simp, fun i li hli => by simp at hli⟩
  | succ fuel ih =>
    intro inDeg remaining hlen hnd hdnd hdeg hnc
    by_cases hre : remaining = []
    · subst hre
      exact ⟨[], rfl, by simp, by simp, fun i li hli => by simp at hli⟩
    · have hremE : remaining.isEmpty = false := isEmpty_false_of_ne_nil hre
      obtain ⟨r0, hr0S, hr0src⟩ := exists_source_of_no_cycle deps remaining hre hnc
      have hr0deg : inDeg r0 = 0 := by
        rw [hdeg r0 hr0S]
        have hf : (deps r0).filter (fun x => remaining.contains x) = [] := by
          apply List.filter_eq_nil_iff.mpr
          intro d hd
          simp [hr0src d hd]
        rw [hf]
        rfl
      have hr0cur : r0 ∈ currentLevel inDeg remaining :=
        mem_currentLevel.mpr ⟨hr0S, hr0deg⟩
      have hcurne : currentLevel inDeg remaining ≠ [] := List.ne_nil_of_mem hr0cur
      have hcurE : (currentLevel inDeg remaining).isEmpty = false :=
        isEmpty_false_of_ne_nil hcurne
      have hsubrem : ∀ x ∈ removeCurrent (currentLevel inDeg remaining) remaining,
          x ∈ remaining := fun x hx => (mem_removeCurrent.mp hx).1
      have hlen' : (removeCurrent (currentLevel inDeg remaining) remaining).length ≤ fuel := by
        have := removeCurrent_length_lt (currentLevel inDeg remaining) remaining
          ⟨r0, hr0cur, hr0S⟩
        omega
      have hnd' : (removeCurrent (currentLevel inDeg remaining) remaining).Nodup :=
        hnd.filter _
      have hdnd' : ∀ r ∈ removeCurrent (currentLevel inDeg remaining) remaining,
          (deps r).Nodup := fun r hr => hdnd r (hsubrem r hr)
      have hdeg' : ∀ r ∈ removeCurrent (currentLevel inDeg remaining) remaining,
          decDeg deps (currentLevel inDeg remaining) inDeg r
            = ((deps r).filter
                (fun x => (removeCurrent (currentLevel inDeg remaining) remaining).contains x)).length := by
        intro r hr
        exact decDeg_eq deps inDeg remaining hnd r
          (hdnd r (hsubrem r hr)) (hdeg r (hsubrem r hr))
      have hnc' : ¬ HasCycle deps (removeCurrent (currentLevel inDeg remaining) remaining) :=
        fun h => hnc (hasCycle_mono hsubrem h)
      obtain ⟨tl, htl, htlnd, htlmem, htldep⟩ :=
        ih (decDeg deps (currentLevel inDeg remaining) inDeg)
          (removeCurrent (currentLevel inDeg remaining) remaining)
          hlen' hnd' hdnd' hdeg' hnc'
      refine ⟨currentLevel inDeg remaining :: tl, ?_, ?_, ?_, ?_⟩
      · show kahnAux deps (fuel + 1) inDeg remaining = _
        simp only [kahnAux, hremE, hcurE, Bool.false_eq_true, if_false, htl, Except.map]
      · simp only [List.flatten_cons]
        rw [List.nodup_append]
        refine ⟨hnd.filter _, htlnd, ?_⟩
        intro x hxc hxt
        have hxr : x ∈ removeCurrent (currentLevel inDeg remaining) remaining :=
          (htlmem x).mp hxt
        exact (mem_removeCurrent.mp hxr).2 hxc
      · intro x
        simp only [List.flatten_cons, List.mem_append]
        constructor
        · rintro (hx | hx)
          · exact (mem_currentLevel.mp hx).1
          · exact hsubrem x ((htlmem x).mp hx)
        · intro hx
          by_cases hxc : x ∈ currentLevel inDeg remaining
          · exact Or.inl hxc
          · exact Or.inr ((htlmem x).mpr (mem_removeCurrent.mpr ⟨hx, hxc⟩))
      · intro i li hli r hrli d hd hdrem
        cases i with
        | zero =>
          have hlic : li = currentLevel inDeg remaining := by
            simpa using hli.symm
          subst hlic
          have hmem := mem_currentLevel.mp hrli
          exfalso
          have hdz := hdeg r hmem.1
          rw [hmem.2] at hdz
          have hdmem : d ∈ (deps r).filter (fun x => remaining.contains x) := by
            simp [List.mem_filter, hd, hdrem]
          have := List.length_pos_of_mem hdmem
          omega
        | succ i =>
          have hli' : tl[i]? = some li := by simpa using hli
          by_cases hdc : d ∈ currentLevel inDeg remaining
          · exact ⟨0, currentLevel inDeg remaining, by omega, by simp, hdc⟩
          · have hdrem' : d ∈ removeCurrent (currentLevel inDeg remaining) remaining :=
              mem_removeCurrent.mpr ⟨hdrem, hdc⟩
            obtain ⟨j, lj, hj, hlj, hdlj⟩ := htldep i li hli' r hrli d hd hdrem'
            exact ⟨j + 1, lj, by omega, by simpa using hlj, hdlj⟩

/-- On a graph whose nodes inside `remaining` contain a closed walk, the
levelling loop reports the circular-dependency error, provided the
maintained in-degrees dominate the count of distinct dependencies still
inside `remaining` (the initial in-degrees do). -/
theorem kahnAux_error (deps : String → List String) :
    ∀ (fuel : Nat) (inDeg : String → Nat) (remaining : List String),
    remaining.Nodup →
    (∀ r ∈ remaining,
      ((deps r).dedup.filter (fun x => remaining.contains x)).length ≤ inDeg r) →
    HasCycle deps remaining →
    kahnAux deps fuel inDeg remaining
      = .error "Circular dependency detected in workflow" := by
  intro fuel
  induction fuel with
  | zero =>
    intro inDeg remaining _ _ hcyc
    obtain ⟨g, n, hn, hclose, hstep⟩ := hcyc
    have hne : remaining ≠ [] := List.ne_nil_of_mem (hstep 0 hn).1
    simp only [kahnAux, isEmpty_false_of_ne_nil hne, Bool.false_eq_true, if_false]
  | succ fuel ih =>
    intro inDeg remaining hnd hdeg hcyc
    obtain ⟨g, n, hn, hclose, hstep⟩ := hcyc
    have hne : remaining ≠ [] := List.ne_nil_of_mem (hstep 0 hn).1
    -- every walk node keeps a distinct dependency inside remaining
    have hwalkdeg : ∀ k, k < n → inDeg (g k) ≠ 0 := by
      intro k hk
      have hgk : g k ∈ remaining := (hstep k hk).1
      have hd : g (k + 1) ∈ deps (g k) := (hstep k hk).2
      have hdrem : g (k + 1) ∈ remaining := by
        by_cases hk1 : k + 1 < n
        · exact (hstep (k + 1) hk1).1
        · have : k + 1 = n := by omega
          rw [this, hclose]
          exact (hstep 0 hn).1
      have hdmem : g (k + 1) ∈ (deps (g k)).dedup.filter
          (fun x => remaining.contains x) := by
        simp [List.mem_filter, List.mem_dedup, hd, hdrem]
      have hpos := List.length_pos_of_mem hdmem
      have := hdeg (g k) hgk
      omega
    have hwalkcur : ∀ k, k < n → g k ∉ currentLevel inDeg remaining := by
      intro k hk hmem
      exact hwalkdeg k hk (mem_currentLevel.mp hmem).2
    by_cases hcur : currentLevel inDeg remaining = []
    · simp only [kahnAux, isEmpty_false_of_ne_nil hne, Bool.false_eq_true, if_false,
        hcur, List.isEmpty_nil, if_true]
    · have hcurE : (currentLevel inDeg remaining).isEmpty = false :=
        isEmpty_false_of_ne_nil hcur
      have hnd' : (removeCurrent (currentLevel inDeg remaining) remaining).Nodup :=
        hnd.filter _
      have hdeg' : ∀ r ∈ removeCurrent (currentLevel inDeg remaining) remaining,
          ((deps r).dedup.filter
            (fun x => (removeCurrent (currentLevel inDeg remaining) remaining).contains x)).length
            ≤ decDeg deps (currentLevel inDeg remaining) inDeg r := by
        intro r hr
        exact decDeg_ge deps inDeg remaining hnd r
          (hdeg r (mem_removeCurrent.mp hr).1)
      have hcyc' : HasCycle deps (removeCurrent (currentLevel inDeg remaining) remaining) := by
        refine ⟨g, n, hn, hclose, ?_⟩
        intro k hk
        refine ⟨mem_removeCurrent.mpr ⟨(hstep k hk).1, hwalkcur k hk⟩, (hstep k hk).2⟩
      have hrec := ih (decDeg deps (currentLevel inDeg remaining) inDeg)
        (removeCurrent (currentLevel inDeg remaining) remaining) hnd' hdeg' hcyc'
      simp only [kahnAux, isEmpty_false_of_ne_nil hne, Bool.false_eq_true, if_false,
        hcurE, hrec, Except.map]

/-! ### From the loop lemmas to `calculate_execution_order` -/

theorem depsOf_spec (children : List AgentConfig) (r : String) :
    depsOf children r = [] ∨
      ∃ c ∈ children, c.role = r ∧ depsOf children r = c.depends_on := by
  unfold depsOf
  cases hfind : children.reverse.find? (fun c => c.role == r) with
  | none => exact Or.inl rfl
  | some c =>
    right
    have hc : c ∈ children.reverse := List.mem_of_find?_eq_some hfind
    have hrole := List.find?_some hfind
    exact ⟨c, List.mem_reverse.mp hc, by simpa using hrole, rfl⟩

theorem depsOf_nodup (children : List AgentConfig)
    (hdnd : ∀ c ∈ children, c.depends_on.Nodup) (r : String) :
    (depsOf children r).Nodup := by
  rcases depsOf_spec children r with h | ⟨c, hc, _, h⟩
  · rw [h]; exact List.nodup_nil
  · rw [h]; exact hdnd c hc

theorem depsOf_subset (children : List AgentConfig)
    (hsub : ∀ c ∈ children, ∀ d ∈ c.depends_on, d ∈ rolesList children)
    (r : String) : ∀ d ∈ depsOf children r, d ∈ rolesList children := by
  rcases depsOf_spec children r with h | ⟨c, hc, _, h⟩ <;> rw [h]
  · intro d hd
    simp at hd
  · exact hsub c hc

theorem depsOf_eq_of_nodup (children : List AgentConfig)
    (hn : (children.map (fun c => c.role)).Nodup)
    (c : AgentConfig) (hc : c ∈ children) :
    depsOf children c.role = c.depends_on := by
  unfold depsOf
  cases hfind : children.reverse.find? (fun x => x.role == c.role) with
  | none =>
    exfalso
    have := List.find?_eq_none.mp hfind c (List.mem_reverse.mpr hc)
    simp at this
  | some c' =>
    have hc' : c' ∈ children := List.mem_reverse.mp (List.mem_of_find?_eq_some hfind)
    have hrole : c'.role = c.role := by simpa using List.find?_some hfind
    have : c' = c := List.inj_on_of_nodup_map hn hc' hc hrole
    rw [this]

/-- Cycle freedom from a rank function that strictly decreases along
dependency edges. -/
theorem no_cycle_of_rank (deps : String → List String) (S : List String)
    (rk : String → Nat) (h : ∀ r ∈ S, ∀ d ∈ deps r, rk d < rk r) :
    ¬ HasCycle deps S := by
  rintro ⟨g, n, hn, hclose, hstep⟩
  have hmono : ∀ k, k ≤ n → rk (g k) + k ≤ rk (g 0) := by
    intro k
    induction k with
    | zero => intro _; omega
    | succ m ih =>
      intro hm
      have hmn : m < n := by omega
      have hd := h (g m) (hstep m hmn).1 _ (hstep m hmn).2
      have := ih (by omega)
      omega
  have := hmono n (le_refl n)
  rw [hclose] at this
  omega

/-- On a cyclic plan, `calculate_execution_order` raises. -/
theorem calcOrder_cycle (config : OrchestrationConfig)
    (hcyc : HasCycle (depsOf config.children) (rolesList config.children)) :
    calculateExecutionOrder config
      = .error "Circular dependency detected in workflow" := by
  apply kahnAux_error
  · exact List.nodup_dedup _
  · intro r _
    calc ((depsOf config.children r).dedup.filter
          (fun x => (rolesList config.children).contains x)).length
        ≤ (depsOf config.children r).dedup.length := List.length_filter_le _ _
      _ ≤ (depsOf config.children r).length :=
          (List.dedup_sublist _).length_le
  · exact hcyc

/-- On an acyclic, well-formed plan, `calculate_execution_order` succeeds
with levels enumerating each role once and dependencies strictly earlier. -/
theorem calcOrder_acyclic (config : OrchestrationConfig)
    (hdnd : ∀ c ∈ config.children, c.depends_on.Nodup)
    (hsub : ∀ c ∈ config.children, ∀ d ∈ c.depends_on, d ∈ rolesList config.children)
    (hnc : ¬ HasCycle (depsOf config.children) (rolesList config.children)) :
    ∃ levels, calculateExecutionOrder config = .ok levels ∧
      levels.flatten.Nodup ∧
      (∀ x, x ∈ levels.flatten ↔ x ∈ rolesList config.children) ∧
      (∀ (i : Nat) (li : List String), levels[i]? = some li →
        ∀ r ∈ li, ∀ d ∈ depsOf config.children r, d ∈ rolesList config.children →
          ∃ (j : Nat) (lj : List String), j < i ∧ levels[j]? = some lj ∧ d ∈ lj) := by
  apply kahnAux_ok
  · exact le_refl _
  · exact List.nodup_dedup _
  · intro r _
    exact depsOf_nodup config.children hdnd r
  · intro r _
    have hall : ∀ d ∈ depsOf config.children r,
        ((rolesList config.children).contains d) = true := by
      intro d hd
      simpa using depsOf_subset config.children hsub r d hd
    rw [List.filter_eq_self.mpr hall]
  · exact hnc

/-! ## Claim C8 -/

/-- C8: for every orchestration config whose `depends_on` graph is
acyclic, whose child roles are distinct, whose `depends_on` lists are
duplicate-free, and whose `depends_on` entries all name existing sibling
roles, `calculate_execution_order` returns levels that enumerate each
child role exactly once with every dependency in a strictly earlier level
than its dependent; for a cyclic graph it raises the circular-dependency
error instead. -/
theorem calculate_execution_order_levels (config : OrchestrationConfig)
    (hroles : (config.children.map (fun c => c.role)).Nodup)
    (hdnd : ∀ c ∈ config.children, c.depends_on.Nodup)
    (hsub : ∀ c ∈ config.children, ∀ d ∈ c.depends_on, d ∈ rolesList config.children) :
    (¬ HasCycle (depsOf config.children) (rolesList config.children) →
      ∃ levels, calculateExecutionOrder config = .ok levels ∧
        levels.flatten.Nodup ∧
        (∀ x, x ∈ levels.flatten ↔ x ∈ rolesList config.children) ∧
        (∀ c ∈ config.children, ∀ d ∈ c.depends_on,
          ∃ (i j : Nat) (li lj : List String), i < j ∧
            levels[i]? = some li ∧ levels[j]? = some lj ∧ d ∈ li ∧ c.role ∈ lj)) ∧
    (HasCycle (depsOf config.children) (rolesList config.children) →
      calculateExecutionOrder config
        = .error "Circular dependency detected in workflow") := by
  constructor
  · intro hnc
    obtain ⟨levels, heq, hnodup, hmem, hdep⟩ := calcOrder_acyclic config hdnd hsub hnc
    refine ⟨levels, heq, hnodup, hmem, ?_⟩
    intro c hc d hd
    have hrole : c.role ∈ rolesList config.children := by
      simp only [rolesList, List.mem_dedup, List.mem_map]
      exact ⟨c, hc, rfl⟩
    have hrolefl : c.role ∈ levels.flatten := (hmem c.role).mpr hrole
    obtain ⟨lj, hljmem, hrlj⟩ := List.mem_flatten.mp hrolefl
    obtain ⟨j, hj⟩ := List.mem_iff_getElem?.mp hljmem
    have hddeps : d ∈ depsOf config.children c.role := by
      rw [depsOf_eq_of_nodup config.children hroles c hc]
      exact hd
    have hdroles : d ∈ rolesList config.children :=
      hsub c hc d hd
    obtain ⟨i, li, hij, hi, hdli⟩ := hdep j lj hj c.role hrlj d hddeps hdroles
    exact ⟨i, j, li, lj, hij, hi, hj, hdli, hrlj⟩
  · exact calcOrder_cycle config

/-- C8 counterexample: `cfgDupDeps` is acyclic and every `depends_on`
entry names an existing sibling role, yet because `["a", "a"]` lists a
dependency twice the in-degree bookkeeping never reaches zero and
`calculate_execution_order` raises the circular-dependency error instead
of returning levels. -/
theorem calculate_execution_order_dup_deps_cex :
    (∀ c ∈ cfgDupDeps.children, ∀ d ∈ c.depends_on, d ∈ rolesList cfgDupDeps.children) ∧
    (cfgDupDeps.children.map (fun c => c.role)).Nodup ∧
    ¬ HasCycle (depsOf cfgDupDeps.children) (rolesList cfgDupDeps.children) ∧
    calculateExecutionOrder cfgDupDeps
      = .error "Circular dependency detected in workflow" ∧
    ¬ ∃ levels, calculateExecutionOrder cfgDupDeps = .ok levels := by
  refine ⟨by decide, by decide, ?_, by decide, ?_⟩
  · exact no_cycle_of_rank _ _ (fun r => if r = "b" then 1 else 0) (by decide)
  · rintro ⟨levels, h⟩
    rw [show calculateExecutionOrder cfgDupDeps
        = .error "Circular dependency detected in workflow" from by decide] at h
    simp at h

/-- Witness for C8: the amended theorem applied to the concrete acyclic
plan `cfgChain` and to the concrete cyclic plan `cfgCycle`. -/
theorem calculate_execution_order_levels_witness :
    (∃ levels, calculateExecutionOrder cfgChain = .ok levels ∧
      levels.flatten.Nodup ∧
      (∀ x, x ∈ levels.flatten ↔ x ∈ rolesList cfgChain.children) ∧
      (∀ c ∈ cfgChain.children, ∀ d ∈ c.depends_on,
        ∃ (i j : Nat) (li lj : List String), i < j ∧
          levels[i]? = some li ∧ levels[j]? = some lj ∧ d ∈ li ∧ c.role ∈ lj)) ∧
    calculateExecutionOrder cfgCycle
      = .error "Circular dependency detected in workflow" := by
  constructor
  · exact (calculate_execution_order_levels cfgChain (by decide) (by decide) (by decide)).1
      (no_cycle_of_rank _ _ (fun r => if r = "test" then 1 else 0) (by decide))
  · exact (calculate_execution_order_levels cfgCycle (by decide) (by decide) (by decide)).2
      ⟨fun k => if k % 2 == 0 then "a" else "b", 2, by decide, by decide, by decide⟩

/-! ## Claim C1 -/

/-- C1 (amended): for any plan whose `depends_on` graph contains a cycle,
`execute_workflow` transitions the workflow to `running` *before*
validating, then the level computation raises the invalid-plan error; the
workflow ends in state `failed` with no agent executed.  Contrary to the
original claim, the `running` state is entered before the rejection. -/
theorem execute_workflow_cyclic_rejects (run : String → Except String String)
    (config : OrchestrationConfig)
    (hcyc : HasCycle (depsOf config.children) (rolesList config.children)) :
    executeWorkflow run config =
      { stateTrace := [WorkflowState.running, WorkflowState.failed]
        agentEvents := []
        outcome := .error "Circular dependency detected in workflow" } := by
  unfold executeWorkflow
  rw [calcOrder_cycle config hcyc]

/-- C1 counterexample: on the cyclic plan `cfgCycle` the workflow *does*
enter the `running` state (the original claim says it never does), even
though no agent is executed and the final state is `failed`. -/
theorem execute_workflow_cyclic_enters_running_cex :
    HasCycle (depsOf cfgCycle.children) (rolesList cfgCycle.children) ∧
    WorkflowState.running ∈ (executeWorkflow (fun _ => .error "") cfgCycle).stateTrace ∧
    (executeWorkflow (fun _ => .error "") cfgCycle).agentEvents = [] ∧
    (executeWorkflow (fun _ => .error "") cfgCycle).stateTrace.getLast?
      = some WorkflowState.failed := by
  exact ⟨⟨fun k => if k % 2 == 0 then "a" else "b", 2, by decide, by decide, by decide⟩,
    by decide, by decide, by decide⟩

/-- Witness for C1: the amended theorem applied to the concrete cyclic
plan of scenario S2. -/
theorem execute_workflow_cyclic_rejects_witness :
    executeWorkflow (fun _ => .error "no llm") cfgCycle =
      { stateTrace := [WorkflowState.running, WorkflowState.failed]
        agentEvents := []
        outcome := .error "Circular dependency detected in workflow" } :=
  execute_workflow_cyclic_rejects _ cfgCycle
    ⟨fun k => if k % 2 == 0 then "a" else "b", 2, by decide, by decide, by decide⟩

/-! ## Claim C2 -/

/-- C2 (amended): `_execute_level` enforces no concurrency bound at all:
during execution of a level of `n` agents, every reachable instantaneous
state has at most `n` agents `running` (the level size is the only
bound), and no agent ever enters the `waiting` state.
`plan.max_parallel_agents` is never consulted by the coordinator, and (see
the counterexample) the number of simultaneously running agents can
exceed it. -/
theorem level_running_bound (n : Nat) (s : List AgentState)
    (h : LevelReachable n s) :
    s.length = n ∧ s.count AgentState.running ≤ n ∧ AgentState.waiting ∉ s := by
  have hinv : s.length = n ∧ AgentState.waiting ∉ s := by
    induction h with
    | refl =>
      constructor
      · exact List.length_replicate _ _
      · intro hmem
        have := List.eq_of_mem_replicate hmem
        simp at this
    | tail _ hstep ih =>
      obtain ⟨ihlen, ihwait⟩ := ih
      have hset : ∀ (b : List AgentState) (i : Nat) (v : AgentState),
          v ≠ AgentState.waiting → b.length = n → AgentState.waiting ∉ b →
          (b.set i v).length = n ∧ AgentState.waiting ∉ b.set i v := by
        intro b i v hv hblen hbwait
        constructor
        · rw [List.length_set]; exact hblen
        · intro hmem
          rcases List.mem_or_eq_of_mem_set hmem with hmem' | hveq
          · exact hbwait hmem'
          · exact hv hveq.symm
      cases hstep with
      | start i hb => exact hset _ i _ (by simp) ihlen ihwait
      | finishOk i hb => exact hset _ i _ (by simp) ihlen ihwait
      | finishErr i hb => exact hset _ i _ (by simp) ihlen ihwait
  refine ⟨hinv.1, ?_, hinv.2⟩
  calc s.count AgentState.running ≤ s.length := List.count_le_length _ _
    _ = n := hinv.1

/-- C2 counterexample: for the plan `cfgTwoPar` (two independent agents,
`max_parallel_agents = 1`) the single level `["a", "b"]` can reach a state
with both agents simultaneously `running`, exceeding the claimed bound;
no semaphore and no `waiting` transition exist in the coordinator. -/
theorem level_exceeds_max_parallel_cex :
    calculateExecutionOrder cfgTwoPar = .ok [["a", "b"]] ∧
    cfgTwoPar.max_parallel_agents = 1 ∧
    LevelReachable 2 [AgentState.running, AgentState.running] ∧
    [AgentState.running, AgentState.running].count AgentState.running
      > cfgTwoPar.max_parallel_agents := by
  refine ⟨by decide, by decide, ?_, by decide⟩
  have s1 : LevelStep [AgentState.creating, AgentState.creating]
      [AgentState.running, AgentState.creating] :=
    LevelStep.start [AgentState.creating, AgentState.creating] 0 rfl
  have s2 : LevelStep [AgentState.running, AgentState.creating]
      [AgentState.running, AgentState.running] :=
    LevelStep.start [AgentState.running, AgentState.creating] 1 rfl
  exact Relation.ReflTransGen.tail (Relation.ReflTransGen.tail Relation.ReflTransGen.refl s1) s2

/-- Witness for C2: the amended bound evaluated on a concrete reachable
state of a two-agent level. -/
theorem level_running_bound_witness :
    [AgentState.running, AgentState.creating].length = 2 ∧
    [AgentState.running, AgentState.creating].count AgentState.running ≤ 2 ∧
    AgentState.waiting ∉ [AgentState.running, AgentState.creating] :=
  level_running_bound 2 [AgentState.running, AgentState.creating]
    (Relation.ReflTransGen.tail Relation.ReflTransGen.refl
      (LevelStep.start [AgentState.creating, AgentState.creating] 0 rfl))

/-! ## Claim C10 -/

theorem assocFind_update {α : Type} (l : List (String × α)) (k : String) (f : α → α) :
    assocFind (assocUpdate l k f) k = Option.map f (assocFind l k) := by
  induction l with
  | nil => rfl
  | cons p t ih =>
    by_cases h : p.1 = k
    · simp [assocFind, assocUpdate, List.find?_cons, h]
    · simp only [assocFind, assocUpdate, List.map_cons] at ih ⊢
      rw [if_neg h]
      rw [List.find?_cons, List.find?_cons]
      have hbeq : (p.1 == k) = false := by
        simp [h]
      rw [hbeq]
      exact ih

/-- C10: `update_agent_state` never overwrites a previously set
`started_at` (it is set exactly on the first transition to `running`),
sets `completed_at` exactly when the new state is `completed` or `failed`
(a transition to `cancelled` leaves it unchanged), and leaves `output`
and `error` unchanged when the corresponding arguments are omitted
(`None`). -/
theorem update_agent_state_frame (agents : List (String × AgentInstance))
    (now agentId : String) (state : AgentState) (output error : Option String)
    (a : AgentInstance) (ha : assocFind agents agentId = some a) :
    ∃ agents', updateAgentState agents now agentId state output error = .ok agents' ∧
      ∃ a', assocFind agents' agentId = some a' ∧
        a'.state = state ∧
        (∀ t, a.started_at = some t → a'.started_at = some t) ∧
        (a.started_at = none →
          a'.started_at = if state = .running then some now else none) ∧
        (a'.completed_at
          = if state = .completed ∨ state = .failed then some now else a.completed_at) ∧
        (output = none → a'.output = a.output) ∧
        (error = none → a'.error = a.error) := by
  unfold updateAgentState
  rw [ha]
  refine ⟨_, rfl, ?_⟩
  rw [assocFind_update, ha]
  refine ⟨_, rfl, ?_⟩
  cases houtput : output <;> cases herror : error <;>
    by_cases hrun : state = AgentState.running <;>
    by_cases hdone : state = AgentState.completed ∨ state = AgentState.failed <;>
    cases hstart : a.started_at <;>
    refine ⟨?_, ?_, ?_, ?_, ?_, ?_⟩ <;>
    simp_all

/-- Witness for C10: the frame conditions evaluated on a concrete agent
map, transitioning an already-started agent to `cancelled` with no
`output`/`error` arguments. -/
theorem update_agent_state_frame_witness :
    ∃ agents', updateAgentState
        [("ag1", { state := AgentState.running, started_at := some "t0",
                   completed_at := none, output := some "o0", error := none })]
        "t1" "ag1" AgentState.cancelled none none = .ok agents' ∧
      ∃ a', assocFind agents' "ag1" = some a' ∧
        a'.state = AgentState.cancelled ∧
        (∀ t, (some "t0" : Option String) = some t → a'.started_at = some t) ∧
        ((some "t0" : Option String) = none →
          a'.started_at = if AgentState.cancelled = AgentState.running
            then some "t1" else none) ∧
        (a'.completed_at
          = if AgentState.cancelled = AgentState.completed
              ∨ AgentState.cancelled = AgentState.failed
            then some "t1" else none) ∧
        ((none : Option String) = none → a'.output = some "o0") ∧
        ((none : Option String) = none → a'.error = none) :=
  update_agent_state_frame
    [("ag1", { state := AgentState.running, started_at := some "t0",
               completed_at := none, output := some "o0", error := none })]
    "t1" "ag1" AgentState.cancelled none none
    { state := AgentState.running, started_at := some "t0",
      completed_at := none, output := some "o0", error := none } (by decide)

/-! ## Claim C5 -/

theorem callWebhookLoop_le (n : Nat) :
    ∀ (idx : Nat) (env : List AttemptOutcome), (callWebhookLoop n idx env).1 ≤ n := by
  induction n with
  | zero => intro idx env; simp [callWebhookLoop]
  | succ n ih =>
    intro idx env
    simp only [callWebhookLoop]
    cases env.headD (AttemptOutcome.exn "connection error") with
    | ok status =>
      by_cases h : status < 400
      · simp [h]
      · simp only [h, if_false]
        have := ih (idx + 1) env.tail
        omega
    | exn msg =>
      by_cases h : n = 0
      · simp [h]
      · simp only [h, if_false]
        have := ih (idx + 1) env.tail
        omega

/-- C5 (amended): `WebhookManager._deliver_webhook` makes exactly one
HTTP attempt with no backoff sleeps — `retry_attempts = 3` is configured
but never read; a delivery is successful iff the response status is 2xx
(`200 ≤ status < 300`): `httpx` 0.27.0's `raise_for_status()` raises on
every non-2xx response, so a 1xx, 3xx, 4xx or 5xx status, or any raised
exception, marks the record `failed` immediately.  (The platform's
`WebhookEventAdapter._call_webhook` does retry, but with
`retry_count + 1 = 4` attempts by default, sleeping `1s, 2s, 4s` only
after exception-failed attempts and recording no delivery history.) -/
theorem deliver_webhook_single_attempt (wh : Webhook) (event : String)
    (data : Json) (now : String) (env : List AttemptOutcome) :
    (deliverWebhook wh event data now env).requestsMade = 1 ∧
    (deliverWebhook wh event data now env).sleeps = [] ∧
    ((deliverWebhook wh event data now env).record.status = "success" ↔
      ∃ status, env.headD (AttemptOutcome.exn "connection error") = .ok status
        ∧ 200 ≤ status ∧ status < 300) ∧
    ((deliverWebhook wh event data now env).record.status = "failed" ↔
      ¬ ∃ status, env.headD (AttemptOutcome.exn "connection error") = .ok status
        ∧ 200 ≤ status ∧ status < 300) ∧
    callWebhook 3 (List.replicate 4 (AttemptOutcome.exn "e")) = (4, [1, 2, 4]) ∧
    (∀ (rc : Nat) (env2 : List AttemptOutcome), (callWebhook rc env2).1 ≤ rc + 1) := by
  refine ⟨?_, ?_, ?_, ?_, by decide, fun rc env2 => callWebhookLoop_le (rc + 1) 0 env2⟩ <;>
    · unfold deliverWebhook
      cases henv : env.headD (AttemptOutcome.exn "connection error") with
      | ok status => by_cases h : 200 ≤ status ∧ status < 300 <;> simp [h]
      | exn msg => simp

/-- C5 counterexample: with a network that fails the first request but
would succeed on a second, `_deliver_webhook` makes exactly one request
(not up to 3), performs no backoff sleeps, and marks the record `failed`
even though a retry was available; and a 301 redirect response — status
< 400 — is also marked `failed`, because httpx's `raise_for_status`
raises on any non-2xx, refuting "successful iff status < 400". -/
theorem deliver_webhook_no_retry_cex :
    (deliverWebhook { id := "w1", url := "http://h" } "agent.completed"
        (Json.obj []) "t0" [.exn "boom", .ok 200, .ok 200]).requestsMade = 1 ∧
    (deliverWebhook { id := "w1", url := "http://h" } "agent.completed"
        (Json.obj []) "t0" [.exn "boom", .ok 200, .ok 200]).requestsMade ≠ 3 ∧
    (deliverWebhook { id := "w1", url := "http://h" } "agent.completed"
        (Json.obj []) "t0" [.exn "boom", .ok 200, .ok 200]).record.status = "failed" ∧
    (deliverWebhook { id := "w1", url := "http://h" } "agent.completed"
        (Json.obj []) "t0" [.exn "boom", .ok 200, .ok 200]).sleeps = [] ∧
    (deliverWebhook { id := "w1", url := "http://h" } "agent.completed"
        (Json.obj []) "t0" [.ok 301]).record.status = "failed" ∧
    (301 : Nat) < 400 := by
  refine ⟨rfl, by decide, rfl, rfl, rfl, by decide⟩

/-! ## Claim C6 -/

/-- C6: for every webhook delivery where the subscription's secret is set
(truthy), the transmitted `X-Webhook-Signature` header equals `sha256=`
followed by the lowercase hex HMAC-SHA256, keyed by the secret, of the
exact body bytes transmitted in the HTTP POST (the signature is computed
over `json.dumps(payload).encode()` and the pinned httpx 0.27.0 transmits
`json.dumps(payload).encode("utf-8")` — the same bytes). -/
theorem webhook_signature_exact_body (wh : Webhook) (event : String)
    (data : Json) (now : String) (env : List AttemptOutcome) (s : String)
    (hsec : wh.secret = some s) (hne : s ≠ "") :
    assocFind (deliverWebhook wh event data now env).request.headers "X-Webhook-Signature"
      = some ("sha256=" ++ hexOfBytes (hmacSha256 (strBytes s)
          (deliverWebhook wh event data now env).request.body)) := by
  have hreq : (deliverWebhook wh event data now env).request
      = { url := wh.url
          body := strBytes (pyDumps (webhookPayload event data now))
          headers := deliveryHeaders wh (pyDumps (webhookPayload event data now)) } := by
    unfold deliverWebhook
    cases env.headD (AttemptOutcome.exn "connection error") with
    | ok status => by_cases h : 200 ≤ status ∧ status < 300 <;> simp [h]
    | exn msg => rfl
  rw [hreq]
  simp only [deliveryHeaders, strTruthy, hsec]
  rw [if_pos (by simp [hne])]
  simp [assocFind, List.find?]

/-- Witness for C6: the signature header of scenario S4 (secret `"k"`,
trigger `agent.completed`, payload `data = obj [("r", 1)]`). -/
theorem webhook_signature_exact_body_witness :
    assocFind (deliverWebhook
        { id := "w1", url := "http://h", secret := some "k" }
        "agent.completed" (Json.obj [("r", Json.num 1)])
        "2024-01-01T00:00:00" [.ok 200]).request.headers "X-Webhook-Signature"
      = some ("sha256=" ++ hexOfBytes (hmacSha256 (strBytes "k")
          (deliverWebhook
            { id := "w1", url := "http://h", secret := some "k" }
            "agent.completed" (Json.obj [("r", Json.num 1)])
            "2024-01-01T00:00:00" [.ok 200]).request.body)) :=
  webhook_signature_exact_body
    { id := "w1", url := "http://h", secret := some "k" }
    "agent.completed" (Json.obj [("r", Json.num 1)])
    "2024-01-01T00:00:00" [.ok 200] "k" rfl (by decide)

/-! ## Claim C7 -/

theorem assocFind_insert_self {α : Type} (l : List (String × α)) (k : String) (v : α) :
    assocFind (assocInsert l k v) k = some v := by
  unfold assocInsert
  by_cases h : (l.find? (fun p => p.1 == k)).isSome
  · rw [if_pos h, assocFind_update]
    unfold assocFind
    cases hf : l.find? (fun p => p.1 == k) with
    | none => rw [hf] at h; simp at h
    | some p => simp
  · rw [if_neg h]
    unfold assocFind
    rw [List.find?_append]
    cases hf : l.find? (fun p => p.1 == k) with
    | none => simp
    | some p => rw [hf] at h; simp at h

theorem addKey_mem_self (f : String → Finset String) (k v : String) :
    v ∈ addKey f k v k := by
  simp [addKey]

theorem addKey_mono {f : String → Finset String} {k v k' x : String}
    (h : x ∈ f k') : x ∈ addKey f k v k' := by
  unfold addKey
  by_cases hk : k' = k
  · rw [if_pos hk]; exact Finset.mem_insert_of_mem h
  · rw [if_neg hk]; exact h

/-- C7 (amended): `create_attachment` never fails: when the file at
`file_path` is missing, both the `os.path.getsize` call and the
checksum read are swallowed by bare `except:` clauses, so the attachment
is recorded with `size = 0` and `checksum = ""` and indexed by mime type;
when the file exists, its bytes give the size and the lowercase SHA-256
hex checksum. -/
theorem create_attachment_missing_file (store : Store)
    (fs : String → Option (List Nat)) (aid path mime : String)
    (metadata : Option (List (String × String))) (now : String) :
    (fs path = none →
      (createAttachment store fs aid path mime metadata now).2.size = 0 ∧
      (createAttachment store fs aid path mime metadata now).2.checksum = "" ∧
      assocFind (createAttachment store fs aid path mime metadata now).1.attachments aid
        = some (createAttachment store fs aid path mime metadata now).2 ∧
      aid ∈ (createAttachment store fs aid path mime metadata now).1.indexes.attachment_by_type mime) ∧
    (∀ bytes, fs path = some bytes →
      (createAttachment store fs aid path mime metadata now).2.size = bytes.length ∧
      (createAttachment store fs aid path mime metadata now).2.checksum
        = hexOfBytes (sha256 bytes) ∧
      assocFind (createAttachment store fs aid path mime metadata now).1.attachments aid
        = some (createAttachment store fs aid path mime metadata now).2 ∧
      aid ∈ (createAttachment store fs aid path mime metadata now).1.indexes.attachment_by_type mime) := by
  constructor
  · intro h
    refine ⟨?_, ?_, ?_, ?_⟩
    · simp [createAttachment, Attachment.create, h]
    · simp [createAttachment, Attachment.create, h]
    · exact assocFind_insert_self _ _ _
    · simpa [createAttachment, indexAttachment, Attachment.create]
        using addKey_mem_self _ mime aid
  · intro bytes h
    refine ⟨?_, ?_, ?_, ?_⟩
    · simp [createAttachment, Attachment.create, h]
    · simp [createAttachment, Attachment.create, h]
    · exact assocFind_insert_self _ _ _
    · simpa [createAttachment, indexAttachment, Attachment.create]
        using addKey_mem_self _ mime aid

/-- C7 counterexample: creating an attachment for a missing file does not
fail and records an attachment (size 0, empty checksum) with its mime
index updated — contradicting "fails with io_error and records
nothing". -/
theorem create_attachment_missing_file_cex :
    (createAttachment {} (fun _ => none) "att1" "/missing" "text/plain" none "t0").2.size = 0 ∧
    (createAttachment {} (fun _ => none) "att1" "/missing" "text/plain" none "t0").2.checksum = "" ∧
    (assocFind (createAttachment {} (fun _ => none) "att1" "/missing" "text/plain" none "t0").1.attachments
        "att1").isSome = true ∧
    "att1" ∈ (createAttachment {} (fun _ => none) "att1" "/missing" "text/plain" none "t0").1.indexes.attachment_by_type
        "text/plain" := by
  refine ⟨rfl, rfl, rfl, by decide⟩

/-- Witness for C7: the amended theorem applied to a missing file and to
a concrete three-byte file. -/
theorem create_attachment_missing_file_witness :
    ((fun (_ : String) => (none : Option (List Nat))) "/missing" = none →
      (createAttachment {} (fun _ => none) "a1" "/missing" "text/plain" none "t0").2.size = 0 ∧
      (createAttachment {} (fun _ => none) "a1" "/missing" "text/plain" none "t0").2.checksum = "" ∧
      assocFind (createAttachment {} (fun _ => none) "a1" "/missing" "text/plain" none "t0").1.attachments "a1"
        = some (createAttachment {} (fun _ => none) "a1" "/missing" "text/plain" none "t0").2 ∧
      "a1" ∈ (createAttachment {} (fun _ => none) "a1" "/missing" "text/plain" none "t0").1.indexes.attachment_by_type "text/plain") ∧
    (∀ bytes, (fun (_ : String) => (some [1, 2, 3] : Option (List Nat))) "/f" = some bytes →
      (createAttachment {} (fun _ => some [1, 2, 3]) "a2" "/f" "text/plain" none "t0").2.size = bytes.length ∧
      (createAttachment {} (fun _ => some [1, 2, 3]) "a2" "/f" "text/plain" none "t0").2.checksum
        = hexOfBytes (sha256 bytes) ∧
      assocFind (createAttachment {} (fun _ => some [1, 2, 3]) "a2" "/f" "text/plain" none "t0").1.attachments "a2"
        = some (createAttachment {} (fun _ => some [1, 2, 3]) "a2" "/f" "text/plain" none "t0").2 ∧
      "a2" ∈ (createAttachment {} (fun _ => some [1, 2, 3]) "a2" "/f" "text/plain" none "t0").1.indexes.attachment_by_type "text/plain") :=
  ⟨(create_attachment_missing_file {} (fun _ => none) "a1" "/missing" "text/plain" none "t0").1,
   (create_attachment_missing_file {} (fun _ => some [1, 2, 3]) "a2" "/f" "text/plain" none "t0").2⟩

/-! ## Claim C9 -/

theorem assocFind_update_ne {α : Type} (l : List (String × α)) (k k' : String)
    (f : α → α) (h : k' ≠ k) :
    assocFind (assocUpdate l k f) k' = assocFind l k' := by
  induction l with
  | nil => rfl
  | cons p t ih =>
    by_cases hp : p.1 = k
    · unfold assocUpdate
      rw [if_pos hp]
      unfold assocFind
      rw [List.find?_cons, List.find?_cons]
      have : (p.1 == k') = false := by
        rw [hp]
        simp only [beq_eq_false_iff_ne, ne_eq]
        exact fun hk => h hk.symm
      rw [this]
    · unfold assocUpdate
      rw [if_neg hp]
      unfold assocFind
      rw [List.find?_cons, List.find?_cons]
      cases hb : (p.1 == k') with
      | true => rfl
      | false => exact ih

theorem assocUpdate_eq_self {α : Type} (l : List (String × α)) (k : String)
    (f : α → α) (h : ∀ v, assocFind l k = some v → f v = v) :
    assocUpdate l k f = l := by
  induction l with
  | nil => rfl
  | cons p t ih =>
    by_cases hp : p.1 = k
    · unfold assocUpdate
      rw [if_pos hp]
      have hfind : assocFind (p :: t) k = some p.2 := by
        unfold assocFind
        rw [List.find?_cons]
        have : (p.1 == k) = true := by simp [hp]
        rw [this]
      rw [h p.2 hfind]
    · unfold assocUpdate
      rw [if_neg hp]
      congr 1
      apply ih
      intro v hv
      apply h
      unfold assocFind at hv ⊢
      rw [List.find?_cons]
      have : (p.1 == k) = false := by simp [hp]
      rw [this]
      exact hv

theorem addRelation_mem_self (now target : String) (it : Item) :
    target ∈ (addRelation now target it).relations := by
  unfold addRelation
  by_cases h : target ∈ it.relations <;> simp [h]

theorem addRelation_eq_self (now target : String) (it : Item)
    (h : target ∈ it.relations) : addRelation now target it = it := by
  simp [addRelation, h]

/-- C9: for every pair of existing items `a` and `b`, `link_items(a, b)`
returns `True` and afterwards `b ∈ a.relations` and `a ∈ b.relations`
(symmetry); repeating the call changes nothing (idempotence, hence no
duplicate entries); if either id does not resolve, it returns `False`
and modifies neither item. -/
theorem link_items_spec (store : Store) (a b now now2 : String) :
    ((∃ ia, assocFind store.items a = some ia) →
     (∃ ib, assocFind store.items b = some ib) →
      (linkItems store a b now).2 = true ∧
      (∃ ia2, assocFind (linkItems store a b now).1.items a = some ia2 ∧
        b ∈ ia2.relations) ∧
      (∃ ib2, assocFind (linkItems store a b now).1.items b = some ib2 ∧
        a ∈ ib2.relations) ∧
      linkItems (linkItems store a b now).1 a b now2
        = ((linkItems store a b now).1, true)) ∧
    ((assocFind store.items a = none ∨ assocFind store.items b = none) →
      linkItems store a b now = (store, false)) := by
  constructor
  · rintro ⟨ia, ha⟩ ⟨ib, hb⟩
    have hlink : linkItems store a b now =
        ({ store with items := (assocUpdate (assocUpdate store.items a (addRelation now b)) b (addRelation now a)) }, true) := by
      unfold linkItems
      rw [ha, hb]
    set items2 := assocUpdate
      (assocUpdate store.items a (addRelation now b)) b (addRelation now a) with hitems2
    -- the value now stored under a, and the value now stored under b
    by_cases hab : a = b
    · subst hab
      have hfa : assocFind items2 a
          = some (addRelation now a (addRelation now a ia)) := by
        rw [hitems2, assocFind_update, assocFind_update, ha]
        rfl
      have hmem : a ∈ (addRelation now a (addRelation now a ia)).relations :=
        addRelation_mem_self _ _ _
      refine ⟨by rw [hlink], ⟨_, by rw [hlink]; exact hfa, hmem⟩,
        ⟨_, by rw [hlink]; exact hfa, hmem⟩, ?_⟩
      rw [hlink]
      unfold linkItems
      rw [hfa]
      have hid : assocUpdate items2 a (addRelation now2 a) = items2 := by
        apply assocUpdate_eq_self
        intro v hv
        rw [hfa] at hv
        cases hv
        exact addRelation_eq_self _ _ _ hmem
      simp [hid]
    · have hfa : assocFind items2 a = some (addRelation now b ia) := by
        rw [hitems2, assocFind_update_ne _ _ _ _ hab, assocFind_update, ha]
        rfl
      have hfb : assocFind items2 b = some (addRelation now a ib) := by
        rw [hitems2, assocFind_update,
          assocFind_update_ne _ _ _ _ (fun h => hab h.symm), hb]
        rfl
      have hmema : b ∈ (addRelation now b ia).relations := addRelation_mem_self _ _ _
      have hmemb : a ∈ (addRelation now a ib).relations := addRelation_mem_self _ _ _
      refine ⟨by rw [hlink], ⟨_, by rw [hlink]; exact hfa, hmema⟩,
        ⟨_, by rw [hlink]; exact hfb, hmemb⟩, ?_⟩
      rw [hlink]
      unfold linkItems
      rw [hfa, hfb]
      have hid1 : assocUpdate items2 a (addRelation now2 b) = items2 := by
        apply assocUpdate_eq_self
        intro v hv
        rw [hfa] at hv
        cases hv
        exact addRelation_eq_self _ _ _ hmema
      have hid2 : assocUpdate items2 b (addRelation now2 a) = items2 := by
        apply assocUpdate_eq_self
        intro v hv
        rw [hfb] at hv
        cases hv
        exact addRelation_eq_self _ _ _ hmemb
      simp [hid1, hid2]
  · intro h
    unfold linkItems
    rcases h with ha | hb
    · rw [ha]
    · rw [hb]
      cases assocFind store.items a <;> rfl

/-- Witness for C9: linking two concrete items, and attempting to link a
missing id. -/
theorem link_items_spec_witness :
    ((linkItems (createItem (createItem {} "i1" "note" "alpha" none "t0")
        "i2" "note" "beta" none "t0") "i1" "i2" "t1").2 = true ∧
      (∃ ia2, assocFind (linkItems (createItem (createItem {} "i1" "note" "alpha" none "t0")
          "i2" "note" "beta" none "t0") "i1" "i2" "t1").1.items "i1" = some ia2 ∧
        "i2" ∈ ia2.relations) ∧
      (∃ ib2, assocFind (linkItems (createItem (createItem {} "i1" "note" "alpha" none "t0")
          "i2" "note" "beta" none "t0") "i1" "i2" "t1").1.items "i2" = some ib2 ∧
        "i1" ∈ ib2.relations) ∧
      linkItems (linkItems (createItem (createItem {} "i1" "note" "alpha" none "t0")
          "i2" "note" "beta" none "t0") "i1" "i2" "t1").1 "i1" "i2" "t2"
        = ((linkItems (createItem (createItem {} "i1" "note" "alpha" none "t0")
            "i2" "note" "beta" none "t0") "i1" "i2" "t1").1, true)) ∧
    linkItems (createItem (createItem {} "i1" "note" "alpha" none "t0")
        "i2" "note" "beta" none "t0") "i1" "zz" "t1"
      = (createItem (createItem {} "i1" "note" "alpha" none "t0")
          "i2" "note" "beta" none "t0", false) :=
  ⟨(link_items_spec (createItem (createItem {} "i1" "note" "alpha" none "t0")
      "i2" "note" "beta" none "t0") "i1" "i2" "t1" "t2").1 ⟨_, rfl⟩ ⟨_, rfl⟩,
   (link_items_spec (createItem (createItem {} "i1" "note" "alpha" none "t0")
      "i2" "note" "beta" none "t0") "i1" "zz" "t1" "t2").2 (Or.inr rfl)⟩

/-! ## Claim C3 -/

theorem addKeys_mono (keys : List String) {f : String → Finset String}
    {v k x : String} (h : x ∈ f k) : x ∈ addKeys f keys v k := by
  induction keys generalizing f with
  | nil => exact h
  | cons a ks ih => exact ih (addKey_mono h)

theorem addKeys_mem_self (keys : List String) (f : String → Finset String)
    (v k : String) (hk : k ∈ keys) : v ∈ addKeys f keys v k := by
  induction keys generalizing f with
  | nil => simp at hk
  | cons a ks ih =>
    rcases List.mem_cons.mp hk with h | h
    · subst h
      exact addKeys_mono ks (addKey_mem_self f k v)
    · exact ih _ h

theorem idxLe_indexThread (idx : IndexManager) (t : Thread) :
    idxLe idx (indexThread idx t) := by
  refine ⟨?_, ?_, ?_, ?_, ?_, ?_, ?_⟩ <;> intro k x h
  · exact addKey_mono h
  · exact addKeys_mono _ h
  · exact h
  · exact h
  · exact h
  · exact addKeys_mono _ h
  · exact h

theorem idxLe_indexItem (idx : IndexManager) (it : Item) :
    idxLe idx (indexItem idx it) := by
  refine ⟨?_, ?_, ?_, ?_, ?_, ?_, ?_⟩ <;> intro k x h
  · exact h
  · exact h
  · exact addKey_mono h
  · exact addKeys_mono _ h
  · exact h
  · exact h
  · exact addKeys_mono _ h

theorem idxLe_indexAttachment (idx : IndexManager) (a : Attachment) :
    idxLe idx (indexAttachment idx a) := by
  refine ⟨?_, ?_, ?_, ?_, ?_, ?_, ?_⟩ <;> intro k x h
  · exact h
  · exact h
  · exact h
  · exact h
  · exact addKey_mono h
  · exact h
  · exact h

theorem threadIndexed_mono {idx idx' : IndexManager} (hle : idxLe idx idx')
    {t : Thread} (h : ThreadIndexed idx t) : ThreadIndexed idx' t :=
  ⟨hle.1 _ _ h.1, fun kv hkv => hle.2.1 _ _ (h.2.1 kv hkv),
   fun w hw => hle.2.2.2.2.2.1 _ _ (h.2.2 w hw)⟩

theorem itemIndexed_mono {idx idx' : IndexManager} (hle : idxLe idx idx')
    {it : Item} (h : ItemIndexed idx it) : ItemIndexed idx' it :=
  ⟨hle.2.2.1 _ _ h.1, fun tag htag => hle.2.2.2.1 _ _ (h.2.1 tag htag),
   fun w hw => hle.2.2.2.2.2.2 _ _ (h.2.2 w hw)⟩

theorem attachmentIndexed_mono {idx idx' : IndexManager} (hle : idxLe idx idx')
    {a : Attachment} (h : AttachmentIndexed idx a) : AttachmentIndexed idx' a :=
  hle.2.2.2.2.1 _ _ h

theorem indexThread_self (idx : IndexManager) (t : Thread) :
    ThreadIndexed (indexThread idx t) t := by
  refine ⟨addKey_mem_self _ _ _, ?_, ?_⟩
  · intro kv hkv
    exact addKeys_mem_self _ _ _ _ (List.mem_map_of_mem _ hkv)
  · intro w hw
    exact addKeys_mem_self _ _ _ _ hw

theorem indexItem_self (idx : IndexManager) (it : Item) :
    ItemIndexed (indexItem idx it) it := by
  refine ⟨addKey_mem_self _ _ _, ?_, ?_⟩
  · intro tag htag
    exact addKeys_mem_self _ _ _ _ htag
  · intro w hw
    exact addKeys_mem_self _ _ _ _ hw

theorem indexAttachment_self (idx : IndexManager) (a : Attachment) :
    AttachmentIndexed (indexAttachment idx a) a :=
  addKey_mem_self _ _ _

theorem mem_assocUpdate {α : Type} {l : List (String × α)} {k : String}
    {f : α → α} {p : String × α} (h : p ∈ assocUpdate l k f) :
    ∃ q ∈ l, p = q ∨ p = (q.1, f q.2) := by
  induction l with
  | nil => simp [assocUpdate] at h
  | cons q t ih =>
    unfold assocUpdate at h
    by_cases hq : q.1 = k
    · rw [if_pos hq] at h
      rcases List.mem_cons.mp h with h | h
      · exact ⟨q, List.mem_cons_self _ _, Or.inr h⟩
      · exact ⟨p, List.mem_cons_of_mem _ h, Or.inl rfl⟩
    · rw [if_neg hq] at h
      rcases List.mem_cons.mp h with h | h
      · exact ⟨q, List.mem_cons_self _ _, Or.inl h⟩
      · obtain ⟨q', hq', hp⟩ := ih h
        exact ⟨q', List.mem_cons_of_mem _ hq', hp⟩

theorem mem_assocInsert {α : Type} {l : List (String × α)} {k : String}
    {v : α} {p : String × α} (h : p ∈ assocInsert l k v) : p ∈ l ∨ p.2 = v := by
  unfold assocInsert at h
  by_cases hs : (l.find? (fun q => q.1 == k)).isSome
  · rw [if_pos hs] at h
    obtain ⟨q, hq, hp⟩ := mem_assocUpdate h
    rcases hp with hp | hp
    · exact Or.inl (hp ▸ hq)
    · right; rw [hp]
  · rw [if_neg hs] at h
    rcases List.mem_append.mp h with h | h
    · exact Or.inl h
    · right
      simp at h
      rw [h]

theorem itemIndexed_addRelation {idx : IndexManager} {it : Item}
    (now target : String) (h : ItemIndexed idx it) :
    ItemIndexed idx (addRelation now target it) := by
  unfold addRelation
  by_cases hm : target ∈ it.relations
  · rw [if_pos hm]; exact h
  · rw [if_neg hm]; exact h

/-- Every single mutation preserves the "currently satisfied keys are
indexed" invariant: the mutated entity is freshly re-indexed, and index
sets only ever grow. -/
theorem storeIndexed_applyOp (store : Store) (op : StoreOp)
    (h : StoreIndexed store) : StoreIndexed (applyOp store op) := by
  obtain ⟨hth, hit, hat⟩ := h
  cases op with
  | createThread tid m now =>
    refine ⟨?_, ?_, ?_⟩
    · intro p hp
      rcases mem_assocInsert hp with hp' | hp'
      · exact threadIndexed_mono (idxLe_indexThread _ _) (hth p hp')
      · rw [hp']
        exact indexThread_self _ _
    · exact fun p hp => itemIndexed_mono (idxLe_indexThread _ _) (hit p hp)
    · exact fun p hp => attachmentIndexed_mono (idxLe_indexThread _ _) (hat p hp)
  | updateThread tid u now =>
    show StoreIndexed (updateThread store tid u now)
    unfold updateThread
    cases hfind : assocFind store.threads tid with
    | none => exact ⟨hth, hit, hat⟩
    | some t =>
      refine ⟨?_, ?_, ?_⟩
      · intro p hp
        rcases mem_assocUpdate hp with ⟨q, hq, hpq | hpq⟩
        · rw [hpq]
          exact threadIndexed_mono (idxLe_indexThread _ _) (hth q hq)
        · rw [hpq]
          exact indexThread_self _ _
      · exact fun p hp => itemIndexed_mono (idxLe_indexThread _ _) (hit p hp)
      · exact fun p hp => attachmentIndexed_mono (idxLe_indexThread _ _) (hat p hp)
  | addMessage tid role content now =>
    show StoreIndexed (addMessage store tid role content now)
    unfold addMessage
    cases hfind : assocFind store.threads tid with
    | none => exact ⟨hth, hit, hat⟩
    | some t =>
      refine ⟨?_, ?_, ?_⟩
      · intro p hp
        rcases mem_assocUpdate hp with ⟨q, hq, hpq | hpq⟩
        · rw [hpq]
          exact threadIndexed_mono (idxLe_indexThread _ _) (hth q hq)
        · rw [hpq]
          exact indexThread_self _ _
      · exact fun p hp => itemIndexed_mono (idxLe_indexThread _ _) (hit p hp)
      · exact fun p hp => attachmentIndexed_mono (idxLe_indexThread _ _) (hat p hp)
  | createItem iid ty c m now =>
    refine ⟨?_, ?_, ?_⟩
    · exact fun p hp => threadIndexed_mono (idxLe_indexItem _ _) (hth p hp)
    · intro p hp
      rcases mem_assocInsert hp with hp' | hp'
      · exact itemIndexed_mono (idxLe_indexItem _ _) (hit p hp')
      · rw [hp']
        exact indexItem_self _ _
    · exact fun p hp => attachmentIndexed_mono (idxLe_indexItem _ _) (hat p hp)
  | updateItem iid u now =>
    show StoreIndexed (updateItem store iid u now)
    unfold updateItem
    cases hfind : assocFind store.items iid with
    | none => exact ⟨hth, hit, hat⟩
    | some it =>
      refine ⟨?_, ?_, ?_⟩
      · exact fun p hp => threadIndexed_mono (idxLe_indexItem _ _) (hth p hp)
      · intro p hp
        rcases mem_assocUpdate hp with ⟨q, hq, hpq | hpq⟩
        · rw [hpq]
          exact itemIndexed_mono (idxLe_indexItem _ _) (hit q hq)
        · rw [hpq]
          exact indexItem_self _ _
      · exact fun p hp => attachmentIndexed_mono (idxLe_indexItem _ _) (hat p hp)
  | linkItems a b now =>
    show StoreIndexed (linkItems store a b now).1
    unfold linkItems
    cases hfa : assocFind store.items a with
    | none => exact ⟨hth, hit, hat⟩
    | some ia =>
      cases hfb : assocFind store.items b with
      | none => exact ⟨hth, hit, hat⟩
      | some ib =>
        refine ⟨fun p hp => hth p hp, ?_, fun p hp => hat p hp⟩
        intro p hp
        rcases mem_assocUpdate hp with ⟨q, hq, hpq | hpq⟩ <;>
          rcases mem_assocUpdate hq with ⟨q', hq', hpq' | hpq'⟩
        · rw [hpq, hpq']
          exact hit q' hq'
        · rw [hpq, hpq']
          exact itemIndexed_addRelation _ _ (hit q' hq')
        · rw [hpq, hpq']
          exact itemIndexed_addRelation _ _ (hit q' hq')
        · rw [hpq, hpq']
          exact itemIndexed_addRelation _ _ (itemIndexed_addRelation _ _ (hit q' hq'))
  | linkItemToThread tid iid now =>
    show StoreIndexed (linkItemToThread store tid iid now).1
    unfold linkItemToThread
    cases hft : assocFind store.threads tid with
    | none => exact ⟨hth, hit, hat⟩
    | some t =>
      cases hfi : assocFind store.items iid with
      | none => exact ⟨hth, hit, hat⟩
      | some it =>
        dsimp only
        by_cases hmem : iid ∈ t.items
        · rw [if_pos hmem]
          exact ⟨hth, hit, hat⟩
        · rw [if_neg hmem]
          refine ⟨?_, fun p hp => hit p hp, fun p hp => hat p hp⟩
          intro p hp
          rcases mem_assocUpdate hp with ⟨q, hq, hpq | hpq⟩
          · rw [hpq]
            exact hth q hq
          · rw [hpq]
            exact hth q hq
  | linkAttachmentToThread tid aid now =>
    show StoreIndexed (linkAttachmentToThread store tid aid now).1
    unfold linkAttachmentToThread
    cases hft : assocFind store.threads tid with
    | none => exact ⟨hth, hit, hat⟩
    | some t =>
      cases hfa : assocFind store.attachments aid with
      | none => exact ⟨hth, hit, hat⟩
      | some att =>
        dsimp only
        by_cases hmem : aid ∈ t.attachments
        · rw [if_pos hmem]
          exact ⟨hth, hit, hat⟩
        · rw [if_neg hmem]
          refine ⟨?_, fun p hp => hit p hp, fun p hp => hat p hp⟩
          intro p hp
          rcases mem_assocUpdate hp with ⟨q, hq, hpq | hpq⟩
          · rw [hpq]
            exact hth q hq
          · rw [hpq]
            exact hth q hq
  | createAttachment aid path mime m contents now =>
    refine ⟨?_, ?_, ?_⟩
    · exact fun p hp => threadIndexed_mono (idxLe_indexAttachment _ _) (hth p hp)
    · exact fun p hp => itemIndexed_mono (idxLe_indexAttachment _ _) (hit p hp)
    · intro p hp
      rcases mem_assocInsert hp with hp' | hp'
      · exact attachmentIndexed_mono (idxLe_indexAttachment _ _) (hat p hp')
      · rw [hp']
        exact indexAttachment_self _ _

/-- C3 (amended): after any sequence of store mutations starting from the
empty store, every entity's id is present in the index set of every key
whose predicate the entity *currently* satisfies (thread status, metadata
pairs, message words; item type, tags, content words; attachment mime
type).  The converse of the original claim fails: index entries are never
removed, so ids linger under keys they no longer satisfy (see the
counterexample). -/
theorem store_index_invariant (ops : List StoreOp) :
    StoreIndexed (applyOps ops {}) := by
  have hstep : ∀ (l : List StoreOp) (s : Store),
      StoreIndexed s → StoreIndexed (applyOps l s) := by
    intro l
    induction l with
    | nil => exact fun s hs => hs
    | cons op rest ih => exact fun s hs => ih _ (storeIndexed_applyOp s op hs)
  refine hstep ops {} ⟨?_, ?_, ?_⟩ <;> intro p hp <;> simp at hp

/-- C3 counterexample: create a thread (status `active`), then update its
status to `completed`; the thread is still a member of
`thread_by_status["active"]` although its status is no longer `active`,
refuting the claimed "if and only if". -/
theorem stale_status_index_cex :
    "t" ∈ (applyOps [StoreOp.createThread "t" none "t0",
        StoreOp.updateThread "t" { status := some "completed" } "t1"] {}).indexes.thread_by_status "active" ∧
    (assocFind (applyOps [StoreOp.createThread "t" none "t0",
        StoreOp.updateThread "t" { status := some "completed" } "t1"] {}).threads "t").map
        (fun th => th.status) = some "completed" := by
  constructor
  · decide
  · rfl

/-! ## Claim C4 -/

theorem interFold_eq_none_iff {α : Type} (sets : α → Finset String) (keys : List α) :
    ∀ acc, (interFold sets keys acc = none ↔ acc = none ∧ keys = []) := by
  induction keys with
  | nil => intro acc; simp [interFold]
  | cons k ks ih =>
    intro acc
    have hstep : interFold sets (k :: ks) acc
        = interFold sets ks (interStep sets acc k) := rfl
    rw [hstep, ih]
    simp [interStep]

theorem interFold_mem {α : Type} (sets : α → Finset String) (keys : List α) :
    ∀ (acc : Option (Finset String)) (T : Finset String) (tid : String),
      interFold sets keys acc = some T →
      (tid ∈ T ↔ (∀ A, acc = some A → tid ∈ A) ∧ ∀ k ∈ keys, tid ∈ sets k) := by
  induction keys with
  | nil =>
    intro acc T tid h
    simp [interFold] at h
    subst h
    simp
  | cons k ks ih =>
    intro acc T tid h
    have hstep : interFold sets (k :: ks) acc
        = interFold sets ks (interStep sets acc k) := rfl
    rw [hstep] at h
    rw [ih _ T tid h]
    cases acc with
    | none =>
      simp only [interStep, List.forall_mem_cons, Option.some.injEq, forall_eq']
      constructor
      · rintro ⟨h1, h2⟩
        exact ⟨by simp, h1, h2⟩
      · rintro ⟨h1, h2, h3⟩
        exact ⟨h2, h3⟩
    | some r =>
      simp only [interStep, List.forall_mem_cons, Option.some.injEq, forall_eq',
        Finset.mem_inter]
      constructor
      · rintro ⟨⟨h1, h2⟩, h3⟩
        exact ⟨h1, h2, h3⟩
      · rintro ⟨h1, h2, h3⟩
        exact ⟨⟨h1, h2⟩, h3⟩

theorem stage2_none_iff (sets : String × String → Finset String)
    (m : Option (List (String × String))) (R1 : Option (Finset String)) :
    (stage2 sets m R1 = none) ↔ (R1 = none ∧ metaApplied m = false) := by
  unfold stage2
  cases m with
  | none => simp [metaApplied]
  | some ml =>
    by_cases hml : ml.isEmpty
    · simp [metaApplied, hml]
    · simp only [hml, Bool.false_eq_true, if_false]
      rw [interFold_eq_none_iff]
      have : ml ≠ [] := by
        cases ml with
        | nil => simp at hml
        | cons a t => simp
      simp [metaApplied, hml, this]

theorem stage2_mem_iff (sets : String × String → Finset String)
    (m : Option (List (String × String))) (b : Bool) (S1 : Finset String)
    (tid : String) :
    ∀ M, stage2 sets m (if b then some S1 else none) = some M →
      (tid ∈ M ↔ (b = true → tid ∈ S1) ∧
        (metaApplied m = true → ∀ kv ∈ m.getD [], tid ∈ sets kv)) := by
  intro M hM
  unfold stage2 at hM
  cases m with
  | none =>
    cases b with
    | false => simp at hM
    | true =>
      simp at hM
      subst hM
      simp [metaApplied]
  | some ml =>
    dsimp only at hM
    by_cases hml : ml.isEmpty
    · rw [if_pos hml] at hM
      have hnil : ml = [] := by
        cases ml with
        | nil => rfl
        | cons a t => simp at hml
      cases b with
      | false => simp at hM
      | true =>
        simp at hM
        subst hM
        simp [metaApplied, hml]
    · rw [if_neg hml] at hM
      rw [interFold_mem sets ml _ M tid hM]
      cases b with
      | false =>
        simp [metaApplied, hml]
      | true =>
        simp only [Option.some.injEq, forall_eq', metaApplied, hml]
        simp
theorem if_some_eq_none_iff (b : Bool) (X : Finset String) :
    ((if b then some X else none) = none) ↔ b = false := by
  cases b <;> simp

theorem searchThreadsIdx_mem (idx : IndexManager) (q s : Option String)
    (m : Option (List (String × String))) (tid : String) :
    tid ∈ searchThreadsIdx idx q s m ↔
      ((statusApplied s = true ∨ metaApplied m = true ∨ textApplied idx q = true) ∧
       (statusApplied s = true → tid ∈ idx.thread_by_status (s.getD "")) ∧
       (metaApplied m = true → ∀ kv ∈ m.getD [], tid ∈ idx.thread_by_metadata (metaKey kv)) ∧
       (textApplied idx q = true → ∀ w ∈ queryWords q, tid ∈ idx.thread_text_index w)) := by
  have h2none := stage2_none_iff (fun kv => idx.thread_by_metadata (metaKey kv)) m
    (if strTruthy s then some (idx.thread_by_status (s.getD "")) else none)
  have h2some := stage2_mem_iff (fun kv => idx.thread_by_metadata (metaKey kv)) m
    (strTruthy s) (idx.thread_by_status (s.getD "")) tid
  rw [if_some_eq_none_iff] at h2none
  unfold searchThreadsIdx statusApplied
  dsimp only
  generalize hR2 : stage2 (fun kv => idx.thread_by_metadata (metaKey kv)) m
      (if strTruthy s then some (idx.thread_by_status (s.getD "")) else none) = R2
  rw [hR2] at h2none h2some
  have hor : ∀ M : Finset String, R2 = some M →
      (strTruthy s = true ∨ metaApplied m = true) := by
    intro M hM
    by_cases hb : strTruthy s = true
    · exact Or.inl hb
    · by_cases hb2 : metaApplied m = true
      · exact Or.inr hb2
      · exfalso
        have hb' : strTruthy s = false := by revert hb; cases strTruthy s <;> simp
        have hb2' : metaApplied m = false := by revert hb2; cases metaApplied m <;> simp
        have := h2none.mpr ⟨hb', hb2'⟩
        rw [hM] at this
        simp at this
  cases ht : textResultSet idx q with
  | none =>
    have hta : textApplied idx q = false := by simp [textApplied, ht]
    cases hR2c : R2 with
    | none =>
      obtain ⟨hsf, hmf⟩ := h2none.mp hR2c
      simp [hsf, hmf, hta]
    | some M =>
      have hM := h2some M hR2c
      subst hR2c
      simp only [Option.getD_some, hM, hta]
      constructor
      · rintro ⟨h1, h2⟩
        refine ⟨?_, h1, h2, by simp⟩
        rcases hor M rfl with h | h
        · exact Or.inl h
        · exact Or.inr (Or.inl h)
      · rintro ⟨_, h1, h2, _⟩
        exact ⟨h1, h2⟩
  | some tr =>
    dsimp only
    have hmemtr : ∀ t2, t2 ∈ tr ↔ ∀ w ∈ queryWords q, t2 ∈ idx.thread_text_index w := by
      intro t2
      have := interFold_mem (fun w => idx.thread_text_index w) (queryWords q) none tr t2 ht
      simpa using this
    by_cases htr : tr = ∅
    · have hta : textApplied idx q = false := by simp [textApplied, ht, htr]
      rw [if_neg (by simp [htr])]
      cases hR2c : R2 with
      | none =>
        obtain ⟨hsf, hmf⟩ := h2none.mp hR2c
        simp [hsf, hmf, hta]
      | some M =>
        have hM := h2some M hR2c
        subst hR2c
        simp only [Option.getD_some, hM, hta]
        constructor
        · rintro ⟨h1, h2⟩
          refine ⟨?_, h1, h2, by simp⟩
          rcases hor M rfl with h | h
          · exact Or.inl h
          · exact Or.inr (Or.inl h)
        · rintro ⟨_, h1, h2, _⟩
          exact ⟨h1, h2⟩
    · have hta : textApplied idx q = true := by simp [textApplied, ht, htr]
      rw [if_pos (by simp [htr])]
      cases hR2c : R2 with
      | none =>
        obtain ⟨hsf, hmf⟩ := h2none.mp hR2c
        simp only [Option.getD_some, hsf, hmf, hta]
        simp [hmemtr tid, hsf, hmf]
      | some M =>
        have hM := h2some M hR2c
        subst hR2c
        simp only [Option.getD_some, Finset.mem_inter, hM, hta]
        constructor
        · rintro ⟨⟨h1, h2⟩, h3⟩
          exact ⟨Or.inr (Or.inr trivial), h1, h2, fun _ => (hmemtr tid).mp h3⟩
        · rintro ⟨_, h1, h2, h3⟩
          exact ⟨⟨h1, h2⟩, (hmemtr tid).mpr (h3 trivial)⟩

theorem charListLe_total : ∀ as bs, (charListLe as bs || charListLe bs as) = true := by
  intro as
  induction as with
  | nil => intro bs; simp [charListLe]
  | cons a as ih =>
    intro bs
    cases bs with
    | nil => simp [charListLe]
    | cons b bs =>
      by_cases hab : a.toNat < b.toNat
      · simp [charListLe, hab]
      · by_cases hba : b.toNat < a.toNat
        · simp [charListLe, hab, hba]
        · simp only [charListLe, hab, hba, if_false]
          exact ih bs

theorem charListLe_trans :
    ∀ as bs cs, charListLe as bs = true → charListLe bs cs = true →
      charListLe as cs = true := by
  intro as
  induction as with
  | nil => intro bs cs _ _; rfl
  | cons a as ih =>
    intro bs cs h1 h2
    cases bs with
    | nil => simp [charListLe] at h1
    | cons b bs =>
      cases cs with
      | nil => simp [charListLe] at h2
      | cons c cs =>
        by_cases hxy : a.toNat < b.toNat
        · by_cases hyz : b.toNat < c.toNat
          · have hxz : a.toNat < c.toNat := lt_trans hxy hyz
            simp [charListLe, hxz]
          · by_cases hzy : c.toNat < b.toNat
            · simp [charListLe, hyz, hzy] at h2
            · have hxz : a.toNat < c.toNat := by omega
              simp [charListLe, hxz]
        · by_cases hyx : b.toNat < a.toNat
          · simp [charListLe, hxy, hyx] at h1
          · simp only [charListLe, hxy, hyx, if_false] at h1
            by_cases hyz : b.toNat < c.toNat
            · have hxz : a.toNat < c.toNat := by omega
              simp [charListLe, hxz]
            · by_cases hzy : c.toNat < b.toNat
              · simp [charListLe, hyz, hzy] at h2
              · simp only [charListLe, hyz, hzy, if_false] at h2
                have hxz : ¬ a.toNat < c.toNat := by omega
                have hzx : ¬ c.toNat < a.toNat := by omega
                simp only [charListLe, hxz, hzx, if_false]
                exact ih bs cs h1 h2

/-- C4 (amended): `search_threads` returns the threads whose ids pass
the supplied filters, sorted by `updated_at` descending and truncated to
`limit`; the id-level semantics is: at least one filter must apply, the
status and metadata filters are conjunctive, and the text filter is
conjunctive over the query words *but only when its intersection is
non-empty* — an empty text intersection is falsy in the source
(`if text_results:`) and is silently ignored, so the structural filters
alone then determine the result, contrary to the original claim. -/
theorem search_threads_semantics (store : Store) (q s : Option String)
    (m : Option (List (String × String))) (limit : Nat) :
    ∃ full : List Thread,
      searchThreads store q s m limit = full.take limit ∧
      List.Sorted (fun t1 t2 => strLe t2.updated_at t1.updated_at = true) full ∧
      (∀ t, t ∈ full ↔ ∃ k, (k, t) ∈ store.threads ∧
        k ∈ searchThreadsIdx store.indexes q s m) ∧
      (∀ tid, tid ∈ searchThreadsIdx store.indexes q s m ↔
        ((statusApplied s = true ∨ metaApplied m = true ∨ textApplied store.indexes q = true) ∧
         (statusApplied s = true → tid ∈ store.indexes.thread_by_status (s.getD "")) ∧
         (metaApplied m = true →
           ∀ kv ∈ m.getD [], tid ∈ store.indexes.thread_by_metadata (metaKey kv)) ∧
         (textApplied store.indexes q = true →
           ∀ w ∈ queryWords q, tid ∈ store.indexes.thread_text_index w))) := by
  haveI htot : IsTotal Thread (fun t1 t2 => strLe t2.updated_at t1.updated_at = true) := by
    constructor
    intro a b
    have := charListLe_total b.updated_at.data a.updated_at.data
    rcases Bool.or_eq_true_iff.mp this with h | h
    · exact Or.inl h
    · exact Or.inr h
  haveI htrans : IsTrans Thread (fun t1 t2 => strLe t2.updated_at t1.updated_at = true) := by
    constructor
    intro a b c hab hbc
    exact charListLe_trans _ _ _ hbc hab
  refine ⟨((store.threads.filter
      (fun p : String × Thread => p.1 ∈ searchThreadsIdx store.indexes q s m)).map
        (fun p : String × Thread => p.2)).insertionSort
          (fun t1 t2 => strLe t2.updated_at t1.updated_at = true),
    rfl, ?_, ?_, fun tid => searchThreadsIdx_mem store.indexes q s m tid⟩
  · exact List.sorted_insertionSort _ _
  · intro t
    rw [(List.perm_insertionSort _ _).mem_iff]
    simp only [List.mem_map, List.mem_filter]
    constructor
    · rintro ⟨p, ⟨hp, hid⟩, rfl⟩
      exact ⟨p.1, by simpa using hp, by simpa using hid⟩
    · rintro ⟨k, hk, hid⟩
      exact ⟨(k, t), ⟨hk, by simpa using hid⟩, rfl⟩

/-- C4 counterexample: a thread with no messages matches no text word,
so the query `"zzz"` has an empty text intersection; the claim demands an
empty result, but the source ignores the empty (falsy) text set and
returns the status-filtered thread. -/
theorem search_text_no_match_cex :
    (createThread {} "t1" none "t0").indexes.thread_text_index "zzz" = ∅ ∧
    (searchThreads (createThread {} "t1" none "t0") (some "zzz") (some "active")
        none 100).map (fun t => t.id) = ["t1"] := by
  constructor
  · decide
  · decide
